import Mathlib

/-!
Verification of the `tier4/ota-metadata` manifest generator and reconstructor.

This file shallowly embeds the line-oriented record format, the kernel-pruning
policy, the classifier first pass, the compression gate and the reconstruction
algorithm of `ota_metadata/metadata_gen.py` and `ota_metadata/data_gen.py`,
and proves (or refutes) the specification claims about them.

Conventions:
* Python strings are modelled as `List Char`.
* Python regular-expression matching is modelled by hand-rolled deterministic
  parsers that implement the leftmost / greedy semantics of the concrete
  patterns used in the source (argued case by case in the comments).
* Machine paths and file contents carry no trailing data; file sizes are `Nat`.
-/

set_option maxHeartbeats 1000000
set_option linter.unusedVariables false

/-- The single-quote character, written via its code point to keep source
lines free of quote literals. -/
def qc : Char := Char.ofNat 39

/-- The backslash character. -/
def bsc : Char := Char.ofNat 92

/-- The newline character. -/
def nlc : Char := Char.ofNat 10

/-- Python `str.replace pat rep`, fuel-indexed so that it is structurally
recursive (the fuel is always at least the input length, so the exhaustion
branch is unreachable). -/
def pyReplaceAux (pat rep : List Char) : Nat → List Char → List Char
  | _, [] => []
  | 0, l => l
  | fuel + 1, c :: rest =>
    if pat ≠ [] ∧ pat.isPrefixOf (c :: rest) then
      rep ++ pyReplaceAux pat rep fuel (List.drop pat.length (c :: rest))
    else
      c :: pyReplaceAux pat rep fuel rest

/-- Python `str.replace pat rep`: left-to-right, non-overlapping replacement
of every occurrence of `pat` (assumed nonempty) by `rep`. -/
def pyReplace (pat rep : List Char) (l : List Char) : List Char :=
  pyReplaceAux pat rep l.length l

theorem pyReplaceAux_congr (pat rep : List Char) :
    ∀ (f1 : Nat) (f2 : Nat) (l : List Char), l.length ≤ f1 → l.length ≤ f2 →
      pyReplaceAux pat rep f1 l = pyReplaceAux pat rep f2 l := by
  intro f1
  induction f1 with
  | zero =>
    intro f2 l h1 h2
    have : l = [] := List.length_eq_zero.mp (by omega)
    subst this
    cases f2 <;> rfl
  | succ f ih =>
    intro f2 l h1 h2
    cases l with
    | nil => cases f2 <;> rfl
    | cons c rest =>
      cases f2 with
      | zero => simp at h2
      | succ g =>
        show (if pat ≠ [] ∧ pat.isPrefixOf (c :: rest) then
            rep ++ pyReplaceAux pat rep f (List.drop pat.length (c :: rest))
          else c :: pyReplaceAux pat rep f rest) =
          (if pat ≠ [] ∧ pat.isPrefixOf (c :: rest) then
            rep ++ pyReplaceAux pat rep g (List.drop pat.length (c :: rest))
          else c :: pyReplaceAux pat rep g rest)
        simp only [List.length_cons] at h1 h2
        by_cases hcond : pat ≠ [] ∧ pat.isPrefixOf (c :: rest)
        · rw [if_pos hcond, if_pos hcond]
          have hplen : 1 ≤ pat.length := by
            cases hpe : pat with
            | nil => exact absurd hpe hcond.1
            | cons a t => simp
          have hlen : (List.drop pat.length (c :: rest)).length ≤ f := by
            simp only [List.length_drop, List.length_cons]
            omega
          have hlen2 : (List.drop pat.length (c :: rest)).length ≤ g := by
            simp only [List.length_drop, List.length_cons]
            omega
          rw [ih g _ hlen hlen2]
        · rw [if_neg hcond, if_neg hcond]
          rw [ih g rest (by omega) (by omega)]

/-- The 4-character escape block that the encoder substitutes for each
single quote inside a path: quote, backslash, quote, quote. -/
def escBlock : List Char := [qc, bsc, qc, qc]

/-- `_encapsulate`-side escaping: `name.replace("'", "'\\''")`
(metadata_gen.py line 84). -/
def escape (l : List Char) : List Char := pyReplace [qc] escBlock l

/-- `de_escape`: `s.replace("'\\''", "'")` (data_gen.py line 40). -/
def deEscape (l : List Char) : List Char := pyReplace escBlock [qc] l

/-- Per-character expansion of `escape`. -/
def esc1 (c : Char) : List Char := if c = qc then escBlock else [c]

theorem pyReplace_nil (pat rep : List Char) : pyReplace pat rep [] = [] := rfl

theorem pyReplace_cons_pos (pat rep : List Char) (c : Char) (rest : List Char)
    (h : pat ≠ [] ∧ pat.isPrefixOf (c :: rest)) :
    pyReplace pat rep (c :: rest) =
      rep ++ pyReplace pat rep (List.drop pat.length (c :: rest)) := by
  show pyReplaceAux pat rep (rest.length + 1) (c :: rest) = _
  show (if pat ≠ [] ∧ pat.isPrefixOf (c :: rest) then
      rep ++ pyReplaceAux pat rep rest.length (List.drop pat.length (c :: rest))
    else c :: pyReplaceAux pat rep rest.length rest) = _
  rw [if_pos h]
  congr 1
  apply pyReplaceAux_congr
  · have hplen : 1 ≤ pat.length := by
      cases hpe : pat with
      | nil => exact absurd hpe h.1
      | cons a t => simp
    simp only [List.length_drop, List.length_cons]
    omega
  · exact Nat.le_refl _

theorem pyReplace_cons_neg (pat rep : List Char) (c : Char) (rest : List Char)
    (h : ¬(pat ≠ [] ∧ pat.isPrefixOf (c :: rest))) :
    pyReplace pat rep (c :: rest) = c :: pyReplace pat rep rest := by
  show pyReplaceAux pat rep (rest.length + 1) (c :: rest) = _
  show (if pat ≠ [] ∧ pat.isPrefixOf (c :: rest) then
      rep ++ pyReplaceAux pat rep rest.length (List.drop pat.length (c :: rest))
    else c :: pyReplaceAux pat rep rest.length rest) = _
  rw [if_neg h]
  rfl

theorem escape_cons (c : Char) (l : List Char) :
    escape (c :: l) = esc1 c ++ escape l := by
  by_cases hc : c = qc
  · subst hc
    rw [escape, pyReplace_cons_pos]
    · simp [esc1, escape, escBlock]
    · constructor
      · simp
      · simp [List.isPrefixOf]
  · rw [escape, pyReplace_cons_neg]
    · simp [esc1, hc, escape]
    · intro h
      rcases h with ⟨-, hpre⟩
      simp [List.isPrefixOf] at hpre
      exact hc hpre.symm

theorem escape_nil : escape [] = [] := rfl

theorem escape_eq_flatMap (l : List Char) : escape l = l.flatMap esc1 := by
  induction l with
  | nil => simp [escape_nil]
  | cons c t ih => rw [escape_cons, ih]; simp [List.flatMap]

theorem sq_ne_bs : qc ≠ bsc := by decide

/-- `de_escape` undoes `escape` on every string. -/
theorem deEscape_escape (l : List Char) : deEscape (escape l) = l := by
  induction l with
  | nil => rfl
  | cons c t ih =>
    rw [escape_cons]
    by_cases hc : c = qc
    · subst hc
      have hb : esc1 qc = escBlock := by simp [esc1]
      rw [hb]
      show deEscape (qc :: (bsc :: qc :: qc :: escape t)) = qc :: t
      rw [deEscape, pyReplace_cons_pos]
      · simp only [escBlock, List.length_cons, List.length_nil]
        show qc :: pyReplace escBlock [qc]
            (List.drop 4 (qc :: bsc :: qc :: qc :: escape t)) = qc :: t
        simp only [List.drop_succ_cons, List.drop_zero]
        exact congrArg (qc :: ·) ih
      · exact ⟨by simp [escBlock], by simp [escBlock, List.isPrefixOf]⟩
    · have hb : esc1 c = [c] := by simp [esc1, hc]
      rw [hb]
      show deEscape (c :: escape t) = c :: t
      rw [deEscape, pyReplace_cons_neg]
      · exact congrArg (c :: ·) ih
      · intro h
        rcases h with ⟨-, hpre⟩
        simp [escBlock, List.isPrefixOf] at hpre
        exact hc hpre.1.symm

/-- Decimal/octal digit test mirroring the regex class `\d`. -/
def isDigitCh (c : Char) : Bool := decide (48 ≤ c.toNat ∧ c.toNat ≤ 57)

/-- Octal digit test: `int(s, 8)` accepts only digits 0-7. -/
def isOctCh (c : Char) : Bool := decide (48 ≤ c.toNat ∧ c.toNat ≤ 55)

/-- Word-character test mirroring the regex class `\w` on the data that
actually occurs in manifests (letters, digits, underscore). -/
def isWordCh (c : Char) : Bool := c.isAlphanum || c = Char.ofNat 95

/-- Value of a digit character. -/
def digitVal (c : Char) : Nat := c.toNat - 48

/-- The digit character for a value between 0 and 9. -/
def digitChar (d : Nat) : Char := Char.ofNat (48 + d % 10)

/-- Fuel-indexed digit rendering in a base at least 2; the fuel always
exceeds the value, so the exhaustion branch is unreachable. -/
def natDigitsAux (base : Nat) : Nat → Nat → List Char
  | 0, _ => []
  | fuel + 1, n =>
    if n < base then [digitChar n]
    else natDigitsAux base fuel (n / base) ++ [digitChar (n % base)]

theorem natDigitsAux_congr {base : Nat} (hb : 2 ≤ base) :
    ∀ (f1 f2 n : Nat), n < f1 → n < f2 →
      natDigitsAux base f1 n = natDigitsAux base f2 n := by
  intro f1
  induction f1 with
  | zero => intro f2 n h1 h2; omega
  | succ f ih =>
    intro f2 n h1 h2
    cases f2 with
    | zero => omega
    | succ g =>
      show (if n < base then [digitChar n]
          else natDigitsAux base f (n / base) ++ [digitChar (n % base)]) =
        (if n < base then [digitChar n]
          else natDigitsAux base g (n / base) ++ [digitChar (n % base)])
      by_cases h : n < base
      · rw [if_pos h, if_pos h]
      · rw [if_neg h, if_neg h]
        have hdiv : n / base < n := Nat.div_lt_self (by omega) (by omega)
        rw [ih g (n / base) (by omega) (by omega)]

/-- Decimal rendering of a natural (most significant digit first),
mirroring Python `str(n)`. -/
def natToDec (n : Nat) : List Char := natDigitsAux 10 (n + 1) n

/-- Octal rendering of a natural, mirroring Python `oct(n)` without prefix. -/
def natToOct (n : Nat) : List Char := natDigitsAux 8 (n + 1) n

theorem natToDec_unfold (n : Nat) :
    natToDec n = if n < 10 then [digitChar n]
      else natToDec (n / 10) ++ [digitChar (n % 10)] := by
  show (if n < 10 then [digitChar n]
      else natDigitsAux 10 n (n / 10) ++ [digitChar (n % 10)]) = _
  by_cases h : n < 10
  · rw [if_pos h, if_pos h]
  · rw [if_neg h, if_neg h]
    have hdiv : n / 10 < n := Nat.div_lt_self (by omega) (by omega)
    rw [natDigitsAux_congr (by omega) n (n / 10 + 1) (n / 10) (by omega) (by omega)]
    rfl

theorem natToOct_unfold (n : Nat) :
    natToOct n = if n < 8 then [digitChar n]
      else natToOct (n / 8) ++ [digitChar (n % 8)] := by
  show (if n < 8 then [digitChar n]
      else natDigitsAux 8 n (n / 8) ++ [digitChar (n % 8)]) = _
  by_cases h : n < 8
  · rw [if_pos h, if_pos h]
  · rw [if_neg h, if_neg h]
    have hdiv : n / 8 < n := Nat.div_lt_self (by omega) (by omega)
    rw [natDigitsAux_congr (by omega) n (n / 8 + 1) (n / 8) (by omega) (by omega)]
    rfl

/-- Value of a digit string in the given base (the fold `int` performs). -/
def digitsVal (base : Nat) (l : List Char) : Nat :=
  l.foldl (fun a c => base * a + digitVal c) 0

theorem digitVal_digitChar (d : Nat) (h : d < 10) : digitVal (digitChar d) = d := by
  interval_cases d <;> decide

theorem isDigitCh_digitChar (d : Nat) : isDigitCh (digitChar d) = true := by
  have h : d % 10 < 10 := Nat.mod_lt _ (by omega)
  unfold digitChar
  interval_cases h2 : d % 10 <;> simp_all <;> decide

theorem isOctCh_digitChar (d : Nat) (h : d < 8) : isOctCh (digitChar d) = true := by
  interval_cases d <;> decide

theorem natToDec_all_digit (n : Nat) : ∀ c ∈ natToDec n, isDigitCh c = true := by
  induction n using Nat.strong_induction_on with
  | _ n ih =>
    intro c hc
    rw [natToDec_unfold] at hc
    by_cases h : n < 10
    · rw [if_pos h] at hc
      simp at hc
      subst hc
      exact isDigitCh_digitChar n
    · rw [if_neg h] at hc
      simp at hc
      rcases hc with hc | hc
      · exact ih (n / 10) (Nat.div_lt_self (by omega) (by omega)) c hc
      · subst hc; exact isDigitCh_digitChar _

theorem natToOct_all_oct (n : Nat) : ∀ c ∈ natToOct n, isOctCh c = true := by
  induction n using Nat.strong_induction_on with
  | _ n ih =>
    intro c hc
    rw [natToOct_unfold] at hc
    by_cases h : n < 8
    · rw [if_pos h] at hc
      simp at hc
      subst hc
      exact isOctCh_digitChar n h
    · rw [if_neg h] at hc
      simp at hc
      rcases hc with hc | hc
      · exact ih (n / 8) (Nat.div_lt_self (by omega) (by omega)) c hc
      · subst hc; exact isOctCh_digitChar _ (Nat.mod_lt _ (by omega))

theorem natToDec_ne_nil (n : Nat) : natToDec n ≠ [] := by
  rw [natToDec_unfold]
  by_cases h : n < 10 <;> simp [h]

theorem natToOct_ne_nil (n : Nat) : natToOct n ≠ [] := by
  rw [natToOct_unfold]
  by_cases h : n < 8 <;> simp [h]

theorem digitsVal_append (base : Nat) (l1 l2 : List Char) :
    (l1 ++ l2).foldl (fun a c => base * a + digitVal c) 0 =
      l2.foldl (fun a c => base * a + digitVal c)
        (l1.foldl (fun a c => base * a + digitVal c) 0) := by
  rw [List.foldl_append]

theorem digitsVal_natToDec (n : Nat) : digitsVal 10 (natToDec n) = n := by
  suffices h : ∀ a, (natToDec n).foldl (fun x c => 10 * x + digitVal c) a =
      a * 10 ^ (natToDec n).length + n by
    have := h 0
    simpa [digitsVal] using this
  induction n using Nat.strong_induction_on with
  | _ n ih =>
    intro a
    rw [natToDec_unfold]
    by_cases h : n < 10
    · rw [if_pos h]
      simp [List.foldl, digitVal_digitChar n h, Nat.mul_comm]
    · rw [if_neg h, List.foldl_append]
      have h1 := ih (n / 10) (Nat.div_lt_self (by omega) (by omega)) a
      rw [h1]
      have h2 : digitVal (digitChar (n % 10)) = n % 10 :=
        digitVal_digitChar _ (Nat.mod_lt _ (by omega))
      simp only [List.foldl, h2, List.length_append, List.length_cons,
        List.length_nil]
      have h3 : 10 * (n / 10) + n % 10 = n := Nat.div_add_mod n 10
      ring_nf
      omega

theorem digitsVal_natToOct (n : Nat) : digitsVal 8 (natToOct n) = n := by
  suffices h : ∀ a, (natToOct n).foldl (fun x c => 8 * x + digitVal c) a =
      a * 8 ^ (natToOct n).length + n by
    have := h 0
    simpa [digitsVal] using this
  induction n using Nat.strong_induction_on with
  | _ n ih =>
    intro a
    rw [natToOct_unfold]
    by_cases h : n < 8
    · rw [if_pos h]
      simp [List.foldl, digitVal_digitChar n (by omega), Nat.mul_comm]
    · rw [if_neg h, List.foldl_append]
      have h1 := ih (n / 8) (Nat.div_lt_self (by omega) (by omega)) a
      rw [h1]
      have h2 : digitVal (digitChar (n % 8)) = n % 8 :=
        digitVal_digitChar _ (by
          have := Nat.mod_lt n (show 0 < 8 by omega)
          omega)
      simp only [List.foldl, h2, List.length_append, List.length_cons,
        List.length_nil]
      have h3 : 8 * (n / 8) + n % 8 = n := Nat.div_add_mod n 8
      ring_nf
      omega

theorem takeWhile_append_all {p : Char → Bool} {l1 l2 : List Char}
    (h : ∀ c ∈ l1, p c = true) :
    (l1 ++ l2).takeWhile p = l1 ++ l2.takeWhile p := by
  induction l1 with
  | nil => simp
  | cons c t ih =>
    have hc : p c = true := h c (by simp)
    simp only [List.cons_append, List.takeWhile_cons, hc, if_true]
    simp [ih (fun x hx => h x (by simp [hx]))]

theorem takeWhile_append_stop {p : Char → Bool} {l1 l2 : List Char}
    (h : ∀ c ∈ l1, p c = true) (h2 : l2.head?.all (fun c => ¬ p c)) :
    (l1 ++ l2).takeWhile p = l1 := by
  rw [takeWhile_append_all h]
  cases l2 with
  | nil => simp
  | cons c t =>
    simp only [List.head?_cons, Option.all_some, decide_eq_true_eq] at h2
    simp [List.takeWhile_cons, h2]

theorem dropWhile_append_all {p : Char → Bool} {l1 l2 : List Char}
    (h : ∀ c ∈ l1, p c = true) :
    (l1 ++ l2).dropWhile p = l2.dropWhile p := by
  induction l1 with
  | nil => simp
  | cons c t ih =>
    have hc : p c = true := h c (by simp)
    simp only [List.cons_append, List.dropWhile_cons, hc]
    exact ih (fun x hx => h x (by simp [hx]))

theorem dropWhile_append_stop {p : Char → Bool} {l1 l2 : List Char}
    (h : ∀ c ∈ l1, p c = true) (h2 : l2.head?.all (fun c => ¬ p c)) :
    (l1 ++ l2).dropWhile p = l2 := by
  rw [dropWhile_append_all h]
  cases l2 with
  | nil => simp
  | cons c t =>
    simp only [List.head?_cons, Option.all_some, decide_eq_true_eq] at h2
    simp [List.dropWhile_cons, h2]

/-- `int(s, 8)`: succeeds only when every character is an octal digit
(`int` raises `ValueError` on the digits 8 and 9, which `\d` admits). -/
def octVal? (l : List Char) : Option Nat :=
  if l ≠ [] ∧ l.all isOctCh then some (digitsVal 8 l) else none

/-- `int(s)` on a string of decimal digits. -/
def decVal (l : List Char) : Nat := digitsVal 10 l

/-- Python `info.strip("\n")`: removes newline characters from both ends. -/
def pyStripNl (l : List Char) : List Char :=
  ((l.dropWhile (fun c => c = nlc)).reverse.dropWhile (fun c => c = nlc)).reverse

theorem pyStripNl_of_no_nl {l : List Char} (h : nlc ∉ l) : pyStripNl l = l := by
  unfold pyStripNl
  have h1 : l.dropWhile (fun c => c = nlc) = l := by
    cases l with
    | nil => simp
    | cons c t =>
      have : ¬(c = nlc) := fun hc => h (by simp [hc])
      simp [List.dropWhile_cons, this]
  rw [h1]
  have h2 : l.reverse.dropWhile (fun c => c = nlc) = l.reverse := by
    cases hr : l.reverse with
    | nil => simp
    | cons c t =>
      have hcm : c ∈ l := by
        have : c ∈ l.reverse := by rw [hr]; simp
        simpa using this
      have : ¬(c = nlc) := fun hc => h (hc ▸ hcm)
      simp [List.dropWhile_cons, this]
  rw [h2, List.reverse_reverse]

/-- The last four characters of `oct(st_mode)`: for any real `st_mode`
(file-type bits set, so at least five octal digits) this is the zero-padded
4-digit octal rendering of the permission bits `mode = st_mode % 0o10000`.
We embed the encoder as acting on the permission bits directly. -/
def oct4 (m : Nat) : List Char :=
  List.replicate (4 - (natToOct m).length) (digitChar 0) ++ natToOct m

theorem octVal?_oct4 (m : Nat) : octVal? (oct4 m) = some m := by
  unfold octVal? oct4
  rw [if_pos]
  · congr 1
    unfold digitsVal
    rw [List.foldl_append]
    have hz : ∀ (k : Nat) , (List.replicate k (digitChar 0)).foldl
        (fun a c => 8 * a + digitVal c) 0 = 0 := by
      intro k
      induction k with
      | zero => simp
      | succ k ih => simpa [List.replicate_succ, List.foldl, digitVal] using ih
    rw [hz]
    exact digitsVal_natToOct m
  · constructor
    · intro hcontra
      have := natToOct_ne_nil m
      rcases List.append_eq_nil.mp hcontra with ⟨-, h2⟩
      exact this h2
    · rw [List.all_eq_true]
      intro c hc
      rcases List.mem_append.mp hc with h | h
      · have := List.eq_of_mem_replicate h
        subst this
        decide
      · exact natToOct_all_oct m c h

theorem decVal_natToDec (n : Nat) : decVal (natToDec n) = n := digitsVal_natToDec n

/-- Parsed form of `DirectoryInf` (data_gen.py lines 52-59). -/
structure DirectoryInf where
  mode : Nat
  uid : Nat
  gid : Nat
  path : List Char
deriving DecidableEq, Repr

/-- Parsed form of `SymbolicLinkInf` (data_gen.py lines 62-74). -/
structure SymbolicLinkInf where
  mode : Nat
  uid : Nat
  gid : Nat
  slink : List Char
  srcpath : List Char
deriving DecidableEq, Repr

/-- Parsed form of `RegularInf` (data_gen.py lines 77-99).  `size` may be
absent, `inode` is kept as the matched digit string (the Python code stores
`res.group("inode")`, a `str` or `None`), as is `compressed_alg`. -/
structure RegularInf where
  mode : Nat
  uid : Nat
  gid : Nat
  nlink : Nat
  sha256hash : List Char
  path : List Char
  size : Option Nat
  inode : Option (List Char)
  compressed_alg : Option (List Char)
deriving DecidableEq, Repr

/-- `_BaseInf.__init__`: strip newlines, then match
`(?P<mode>\d+),(?P<uid>\d+),(?P<gid>\d+),(?P<left_over>.*)`.
The three digit runs are maximal (backtracking inside a digit run cannot
create the required comma), `left_over` extends to the first newline or the
end, and the octal conversion of `mode` fails on the digits 8 and 9. -/
def parseBase (info : List Char) : Option (Nat × Nat × Nat × List Char) :=
  let l := pyStripNl info
  let mo := l.takeWhile isDigitCh
  let r1 := l.dropWhile isDigitCh
  if mo = [] then none else
  match r1 with
  | c1 :: r1t =>
    if c1 ≠ (',' : Char) then none else
    let us := r1t.takeWhile isDigitCh
    let r2 := r1t.dropWhile isDigitCh
    if us = [] then none else
    match r2 with
    | c2 :: r2t =>
      if c2 ≠ (',' : Char) then none else
      let gs := r2t.takeWhile isDigitCh
      let r3 := r2t.dropWhile isDigitCh
      if gs = [] then none else
      match r3 with
      | c3 :: r3t =>
        if c3 ≠ (',' : Char) then none else
        match octVal? mo with
        | none => none
        | some m => some (m, decVal us, decVal gs, r3t.takeWhile (fun c => c ≠ nlc))
      | [] => none
    | [] => none
  | [] => none

/-- `DirectoryInf.__init__`: `path = de_escape(left[1:-1])`. -/
def parseDirectoryInf (info : List Char) : Option DirectoryInf :=
  (parseBase info).map fun x =>
    ⟨x.1, x.2.1, x.2.2.1, deEscape ((x.2.2.2.drop 1).dropLast)⟩

/-- All decompositions `l = l.take i ++ l.drop i`, ordered by increasing
prefix length (the candidate separator positions of the symlink pattern). -/
def allSplits (l : List Char) : List (List Char × List Char) :=
  (List.range (l.length + 1)).map fun i => (l.take i, l.drop i)

/-- Viability of a separator position for the symlink pattern
`'(?P<link>.+)((?<!\')',')(?P<target>.+)'` (data_gen.py line 67):
the three characters quote-comma-quote start here, at least the opening
quote and one link character precede (`.+`), the preceding character is not
a quote (the negative lookbehind), and a quote usable as the target's
closing quote exists at distance at least 4 (`.+` then `'`). -/
def sepViable (pre post : List Char) : Bool :=
  decide (2 ≤ pre.length) &&
  decide (post.take 3 = [qc, ',', qc]) &&
  decide (pre.getLast? ≠ some qc) &&
  ((post.drop 4).contains qc)

/-- Split a field region at the last quote: returns the characters before
the last quote and those after it (the greedy `.+` before a final `'`). -/
def splitAtLastQuote (l : List Char) : Option (List Char × List Char) :=
  let r := l.reverse
  let aft := r.takeWhile (fun c => c ≠ qc)
  if aft.length = r.length then none
  else some ((r.drop (aft.length + 1)).reverse, aft.reverse)

/-- The separator search of `SymbolicLinkInf._pattern`: the regex engine
maximises `link` (greedy `.+`) and so commits to the rightmost viable
separator; the target is then the greedy `.+` up to the last quote. -/
def parseSymPair (left : List Char) : Option (List Char × List Char) :=
  if left.head? ≠ some qc then none else
  match ((allSplits left).filter fun pr => sepViable pr.1 pr.2).getLast? with
  | none => none
  | some (pre, post) =>
    match splitAtLastQuote (post.drop 3) with
    | none => none
    | some (tg, _) => if tg = [] then none else some (pre.drop 1, tg)

/-- `SymbolicLinkInf.__init__`. -/
def parseSymbolicLinkInf (info : List Char) : Option SymbolicLinkInf :=
  match parseBase info with
  | none => none
  | some (m, u, g, left) =>
    match parseSymPair left with
    | none => none
    | some (lk, tg) => some ⟨m, u, g, deEscape lk, deEscape tg⟩

/-- The optional trailing fields of `RegularInf._pattern`:
`(,(?P<size>\d+)?(,(?P<inode>\d+)?(,(?P<compressed_alg>\w+)?)?)?)?`.
Each nested group consumes a comma and then an optional greedy run; an empty
run leaves the group `None`. -/
def parseRegularTrailing (l : List Char) :
    Option Nat × Option (List Char) × Option (List Char) :=
  match l with
  | c1 :: r1 =>
    if c1 ≠ (',' : Char) then (none, none, none) else
    let ds := r1.takeWhile isDigitCh
    let r2 := r1.dropWhile isDigitCh
    let size := if ds = [] then none else some (decVal ds)
    match r2 with
    | c2 :: r3 =>
      if c2 ≠ (',' : Char) then (size, none, none) else
      let is_ := r3.takeWhile isDigitCh
      let r4 := r3.dropWhile isDigitCh
      let inode := if is_ = [] then none else some is_
      match r4 with
      | c3 :: r5 =>
        if c3 ≠ (',' : Char) then (size, inode, none) else
        let as_ := r5.takeWhile isWordCh
        (size, inode, if as_ = [] then none else some as_)
      | [] => (size, inode, none)
    | [] => (size, none, none)
  | [] => (none, none, none)

/-- `RegularInf.__init__`: match
`(?P<nlink>\d+),(?P<hash>\w+),'(?P<path>.+)'` followed by the optional
trailing groups.  The greedy `.+` for the path extends to the last quote of
the line (nothing after the path pattern can force further backtracking,
since all trailing groups are optional and the match is unanchored). -/
def parseRegularInf (info : List Char) : Option RegularInf :=
  match parseBase info with
  | none => none
  | some (m, u, g, left) =>
    let ns := left.takeWhile isDigitCh
    let r1 := left.dropWhile isDigitCh
    if ns = [] then none else
    match r1 with
    | c1 :: r1t =>
      if c1 ≠ (',' : Char) then none else
      let hs := r1t.takeWhile isWordCh
      let r2 := r1t.dropWhile isWordCh
      if hs = [] then none else
      match r2 with
      | c2 :: r2t =>
        if c2 ≠ (',' : Char) then none else
        match r2t with
        | c3 :: region =>
          if c3 ≠ qc then none else
          match splitAtLastQuote region with
          | none => none
          | some (pathF, tail) =>
            if pathF = [] then none else
            let t := parseRegularTrailing tail
            some ⟨m, u, g, decVal ns, hs, deEscape pathF, t.1, t.2.1, t.2.2⟩
        | [] => none
      | [] => none
    | [] => none

/-- `os.path.join` (POSIX, two arguments), used by `_encapsulate`. -/
def osPathJoin (a b : List Char) : List Char :=
  if b.head? = some '/' then b
  else if a = [] then b
  else if a.getLast? = some '/' then a ++ b
  else a ++ '/' :: b

/-- `_encapsulate(name, prefix)` (metadata_gen.py lines 83-85). -/
def encapsulate (pfx name : List Char) : List Char :=
  qc :: osPathJoin pfx (escape name) ++ [qc]

/-- The directory line written by `gen_metadata` (metadata_gen.py line 577),
with empty prefix: `mode,uid,gid,'path'`.  The mode field is
`oct(st_mode)[-4:]`, i.e. the zero-padded 4-digit octal permission bits. -/
def encodeDirLine (d : DirectoryInf) : List Char :=
  oct4 d.mode ++ ',' :: natToDec d.uid ++ ',' :: natToDec d.gid ++
    ',' :: encapsulate [] d.path

/-- The symlink line written by `gen_metadata` (lines 562-566):
`mode,uid,gid,'link','target'`. -/
def encodeSymlinkLine (s : SymbolicLinkInf) : List Char :=
  oct4 s.mode ++ ',' :: natToDec s.uid ++ ',' :: natToDec s.gid ++
    ',' :: encapsulate [] s.slink ++ ',' :: encapsulate [] s.srcpath

/-- The regular line written by `gen_metadata` (lines 624-631):
`mode,uid,gid,nlink,hash,'path',size,inode,alg` where `inode` and `alg` may
be empty fields. -/
def encodeRegularLine (r : RegularInf) : List Char :=
  oct4 r.mode ++ ',' :: natToDec r.uid ++ ',' :: natToDec r.gid ++
    ',' :: natToDec r.nlink ++ ',' :: r.sha256hash ++
    ',' :: encapsulate [] r.path ++
    ',' :: (r.size.elim [] natToDec) ++
    ',' :: (r.inode.getD []) ++
    ',' :: (r.compressed_alg.getD [])

theorem escape_ne_nil {l : List Char} (h : l ≠ []) : escape l ≠ [] := by
  cases l with
  | nil => exact absurd rfl h
  | cons c t =>
    rw [escape_cons]
    intro hcontra
    rcases List.append_eq_nil.mp hcontra with ⟨h1, -⟩
    unfold esc1 at h1
    by_cases hc : c = qc <;> simp [hc, escBlock] at h1

theorem mem_escape {c : Char} {l : List Char} (h : c ∈ escape l) :
    c = qc ∨ c = bsc ∨ c ∈ l := by
  rw [escape_eq_flatMap] at h
  rcases List.mem_flatMap.mp h with ⟨d, hd, hcd⟩
  unfold esc1 at hcd
  by_cases hdq : d = qc
  · simp [hdq, escBlock] at hcd
    rcases hcd with h | h | h <;> simp [h]
  · simp [hdq] at hcd
    subst hcd
    right; right; exact hd

theorem nlc_not_mem_escape {l : List Char} (h : nlc ∉ l) : nlc ∉ escape l := by
  intro hc
  rcases mem_escape hc with h1 | h1 | h1
  · exact absurd h1 (by decide)
  · exact absurd h1 (by decide)
  · exact h h1

theorem escape_getLast_qc_iff {l : List Char} (h : l ≠ []) :
    ((escape l).getLast? = some qc) ↔ (l.getLast? = some qc) := by
  induction l with
  | nil => exact absurd rfl h
  | cons c t ih =>
    cases t with
    | nil =>
      rw [escape_cons, escape_nil, List.append_nil]
      unfold esc1
      by_cases hc : c = qc
      · simp [hc, escBlock]
      · simp [hc, if_false]
    | cons d t2 =>
      rw [escape_cons]
      have hne : escape (d :: t2) ≠ [] := escape_ne_nil (by simp)
      rw [List.getLast?_append_of_ne_nil _ hne]
      rw [ih (by simp)]
      have : (c :: d :: t2).getLast? = (d :: t2).getLast? := by
        simp [List.getLast?_cons_cons]
      rw [this]

/-- Structure of commas inside an escaped string: a comma directly preceded
by a quote can only sit right after a full escape block, so the two
characters before it are both quotes. -/
theorem escape_comma_ctx (t : List Char) :
    ∀ a b : List Char, escape t = a ++ (',' : Char) :: b →
      a.getLast? = some qc → ∃ a2, a = a2 ++ [qc, qc] := by
  induction t with
  | nil =>
    intro a b h h2
    rw [escape_nil] at h
    exact absurd h.symm (by simp)
  | cons c t ih =>
    intro a b h h2
    rw [escape_cons] at h
    by_cases hc : c = qc
    · subst hc
      have hb : esc1 qc = [qc, bsc, qc, qc] := by simp [esc1, escBlock]
      rw [hb] at h
      cases a with
      | nil => simp at h2
      | cons x1 a1 =>
        simp only [List.cons_append, List.cons.injEq] at h
        obtain ⟨hx1, h⟩ := h
        cases a1 with
        | nil =>
          simp only [List.nil_append, List.cons.injEq] at h
          exact absurd h.1.symm (by decide)
        | cons x2 a2 =>
          simp only [List.cons_append, List.cons.injEq] at h
          obtain ⟨hx2, h⟩ := h
          cases a2 with
          | nil =>
            simp only [List.nil_append, List.cons.injEq] at h
            exact absurd h.1.symm (by decide)
          | cons x3 a3 =>
            simp only [List.cons_append, List.cons.injEq] at h
            obtain ⟨hx3, h⟩ := h
            cases a3 with
            | nil =>
              simp only [List.nil_append, List.cons.injEq] at h
              exact absurd h.1.symm (by decide)
            | cons x4 a4 =>
              simp only [List.cons_append, List.cons.injEq] at h
              obtain ⟨hx4, h⟩ := h
              cases a4 with
              | nil =>
                refine ⟨[x1, x2], ?_⟩
                rw [← hx3, ← hx4]
                rfl
              | cons x5 a5 =>
                have h2' : (x5 :: a5).getLast? = some qc := by
                  have := h2
                  simp only [List.getLast?_cons_cons] at this ⊢
                  exact this
                rcases ih (x5 :: a5) b h h2' with ⟨a6, ha6⟩
                refine ⟨x1 :: x2 :: x3 :: x4 :: a6, ?_⟩
                simp [ha6, hx1, hx2, hx3, hx4]
    · have hb : esc1 c = [c] := by simp [esc1, hc]
      rw [hb] at h
      cases a with
      | nil => simp at h2
      | cons x1 a1 =>
        simp only [List.cons_append, List.cons.injEq] at h
        obtain ⟨hx1, h⟩ := h
        cases a1 with
        | nil =>
          simp only [List.getLast?_singleton, Option.some.injEq] at h2
          exact absurd (hx1.trans h2) hc
        | cons x2 a2 =>
          have h2' : (x2 :: a2).getLast? = some qc := by
            have := h2
            simp only [List.getLast?_cons_cons] at this ⊢
            exact this
          rcases ih (x2 :: a2) b h h2' with ⟨a6, ha6⟩
          exact ⟨x1 :: a6, by simp [ha6, hx1]⟩

theorem escape_head_qc {t : List Char} {r : List Char}
    (h : escape t = qc :: r) : ∃ t2, t = qc :: t2 := by
  cases t with
  | nil => rw [escape_nil] at h; exact absurd h (by simp)
  | cons c t2 =>
    rw [escape_cons] at h
    by_cases hc : c = qc
    · exact ⟨t2, by rw [hc]⟩
    · have hb : esc1 c = [c] := by simp [esc1, hc]
      rw [hb] at h
      simp only [List.cons_append, List.cons.injEq] at h
      exact absurd h.1 hc

theorem escape_take2_comma_qc {t : List Char}
    (h : (escape t).take 2 = [(',' : Char), qc]) :
    t.take 2 = [(',' : Char), qc] := by
  cases t with
  | nil => rw [escape_nil] at h; simp at h
  | cons c t2 =>
    rw [escape_cons] at h
    by_cases hc : c = qc
    · subst hc
      have hb : esc1 qc = [qc, bsc, qc, qc] := by simp [esc1, escBlock]
      rw [hb] at h
      simp at h
      exact absurd h.1.symm (by decide)
    · have hb : esc1 c = [c] := by simp [esc1, hc]
      rw [hb] at h
      simp only [List.cons_append] at h
      cases t2 with
      | nil =>
        rw [escape_nil] at h
        have hlen := congrArg List.length h
        simp [List.length_take] at hlen
      | cons d t3 =>
        have hne : escape (d :: t3) ≠ [] := escape_ne_nil (by simp)
        cases he : escape (d :: t3) with
        | nil => exact absurd he hne
        | cons e r =>
          rw [he] at h
          simp only [List.nil_append] at h
          have hred : List.take 2 (c :: e :: r) = [c, e] := rfl
          rw [hred] at h
          have hc1 : c = (',' : Char) := by
            simpa using congrArg (fun l => l.head?) h
          have he2 : e = qc := by
            simpa using congrArg (fun l => l.getLast?) h
          rw [he2] at he
          rcases escape_head_qc he with ⟨t4, ht4⟩
          subst hc1
          rw [ht4]
          simp

theorem isOctCh_imp_digit {c : Char} (h : isOctCh c = true) : isDigitCh c = true := by
  simp [isOctCh] at h
  simp [isDigitCh]
  omega

theorem isDigitCh_ne_nlc {c : Char} (h : isDigitCh c = true) : c ≠ nlc := by
  intro hc; subst hc; exact absurd h (by decide)

theorem isDigitCh_comma : isDigitCh (',' : Char) = false := by decide

theorem isWordCh_comma : isWordCh (',' : Char) = false := by decide

theorem isWordCh_qc : isWordCh qc = false := by decide

theorem isWordCh_ne_nlc {c : Char} (h : isWordCh c = true) : c ≠ nlc := by
  intro hc; subst hc; exact absurd h (by decide)

theorem isWordCh_ne_qc {c : Char} (h : isWordCh c = true) : c ≠ qc := by
  intro hc; subst hc; exact absurd h (by rw [isWordCh_qc]; simp)

theorem oct4_all_digit (m : Nat) : ∀ c ∈ oct4 m, isDigitCh c = true := by
  intro c hc
  unfold oct4 at hc
  rcases List.mem_append.mp hc with h | h
  · have := List.eq_of_mem_replicate h
    subst this
    decide
  · exact isOctCh_imp_digit (natToOct_all_oct m c h)

theorem oct4_ne_nil (m : Nat) : oct4 m ≠ [] := by
  unfold oct4
  intro h
  rcases List.append_eq_nil.mp h with ⟨-, h2⟩
  exact natToOct_ne_nil m h2

theorem takeWhile_all_eq_self {p : Char → Bool} : ∀ {l : List Char},
    (∀ c ∈ l, p c = true) → l.takeWhile p = l := by
  intro l
  induction l with
  | nil => intro h; simp
  | cons c t ih =>
    intro h
    have hc : p c = true := h c (by simp)
    simp only [List.takeWhile_cons, hc, if_true]
    exact congrArg (c :: ·) (ih (fun x hx => h x (by simp [hx])))

theorem nlc_not_mem_digits {l : List Char} (h : ∀ c ∈ l, isDigitCh c = true) :
    nlc ∉ l := fun hc => isDigitCh_ne_nlc (h nlc hc) rfl

/-- `parseBase` on a canonically rendered line prefix recovers the three
numeric fields and the rest of the line. -/
theorem parseBase_canonical (m u g : Nat) (left : List Char) (hnl : nlc ∉ left) :
    parseBase (oct4 m ++ ',' :: (natToDec u ++ ',' :: (natToDec g ++ ',' :: left))) =
      some (m, u, g, left) := by
  have hoct := oct4_all_digit m
  have hu := natToDec_all_digit u
  have hg := natToDec_all_digit g
  have hline_nl : nlc ∉ (oct4 m ++ ',' :: (natToDec u ++ ',' :: (natToDec g ++ ',' :: left))) := by
    intro hc
    rcases List.mem_append.mp hc with h | h
    · exact nlc_not_mem_digits hoct h
    · rcases List.mem_cons.mp h with h | h
      · exact absurd h.symm (by decide)
      · rcases List.mem_append.mp h with h | h
        · exact nlc_not_mem_digits hu h
        · rcases List.mem_cons.mp h with h | h
          · exact absurd h.symm (by decide)
          · rcases List.mem_append.mp h with h | h
            · exact nlc_not_mem_digits hg h
            · rcases List.mem_cons.mp h with h | h
              · exact absurd h.symm (by decide)
              · exact hnl h
  have hcomma_stop : ∀ (r : List Char),
      ((',' : Char) :: r).head?.all (fun c => ¬ isDigitCh c) = true := by
    intro r; simp [isDigitCh_comma]
  have hleft_tw : left.takeWhile (fun c => c ≠ nlc) = left :=
    takeWhile_all_eq_self (fun c hc => by
      simp only [ne_eq, decide_eq_true_eq]
      intro hceq
      exact hnl (hceq ▸ hc))
  simp only [parseBase]
  rw [pyStripNl_of_no_nl hline_nl]
  rw [takeWhile_append_stop hoct (hcomma_stop _),
      dropWhile_append_stop hoct (hcomma_stop _)]
  rw [if_neg (oct4_ne_nil m)]
  simp only
  rw [takeWhile_append_stop hu (hcomma_stop _),
      dropWhile_append_stop hu (hcomma_stop _)]
  simp only [ne_eq, not_true_eq_false, reduceIte, if_false]
  rw [if_neg (natToDec_ne_nil u)]
  rw [takeWhile_append_stop hg (hcomma_stop _),
      dropWhile_append_stop hg (hcomma_stop _)]
  simp only [ne_eq, not_true_eq_false, reduceIte, if_false]
  rw [if_neg (natToDec_ne_nil g)]
  rw [octVal?_oct4, hleft_tw]
  simp [decVal_natToDec]

theorem drop_length_add {α : Type} (l1 l2 : List α) (n : Nat) :
    (l1 ++ l2).drop (l1.length + n) = l2.drop n := by
  induction l1 with
  | nil => simp
  | cons c t ih => simp [Nat.succ_add, ih]

/-- `splitAtLastQuote` on a region whose final quote is followed only by
quote-free characters returns the region before that quote and the tail. -/
theorem splitAtLastQuote_canonical (P t : List Char) (h : qc ∉ t) :
    splitAtLastQuote (P ++ qc :: t) = some (P, t) := by
  have hrev : (P ++ qc :: t).reverse = t.reverse ++ qc :: P.reverse := by
    simp
  have htall : ∀ c ∈ t.reverse, (decide (c ≠ qc)) = true := by
    intro c hc
    simp only [decide_eq_true_eq]
    intro hceq
    exact h (hceq ▸ (List.mem_reverse.mp hc))
  have haft : (t.reverse ++ qc :: P.reverse).takeWhile (fun c => decide (c ≠ qc)) =
      t.reverse := by
    apply takeWhile_append_stop htall
    simp
  simp only [splitAtLastQuote]
  rw [hrev, haft]
  rw [if_neg (by
    simp only [List.length_reverse, List.length_append, List.length_cons]
    omega)]
  have hdrop : (t.reverse ++ qc :: P.reverse).drop (t.reverse.length + 1) =
      P.reverse := by
    rw [drop_length_add]
    simp
  rw [hdrop, List.reverse_reverse, List.reverse_reverse]

theorem osPathJoin_nil (b : List Char) : osPathJoin [] b = b := by
  unfold osPathJoin
  by_cases h : b.head? = some '/' <;> simp [h]

theorem encapsulate_nil (name : List Char) :
    encapsulate [] name = qc :: (escape name ++ [qc]) := by
  simp [encapsulate, osPathJoin_nil]

theorem nlc_not_mem_encap {p : List Char} (h : nlc ∉ p) :
    nlc ∉ qc :: (escape p ++ [qc]) := by
  intro hc
  rcases List.mem_cons.mp hc with h1 | h1
  · exact absurd h1.symm (by decide)
  · rcases List.mem_append.mp h1 with h2 | h2
    · exact nlc_not_mem_escape h h2
    · simp at h2
      exact absurd h2.symm (by decide)

/-- Round trip for directory lines. -/
theorem parse_encode_dir (d : DirectoryInf) (hnl : nlc ∉ d.path) :
    parseDirectoryInf (encodeDirLine d) = some d := by
  unfold encodeDirLine parseDirectoryInf
  rw [encapsulate_nil]
  have hb := parseBase_canonical d.mode d.uid d.gid
    (qc :: (escape d.path ++ [qc])) (nlc_not_mem_encap hnl)
  rw [show oct4 d.mode ++ ',' :: natToDec d.uid ++ ',' :: natToDec d.gid ++
      ',' :: (qc :: (escape d.path ++ [qc])) =
      oct4 d.mode ++ ',' :: (natToDec d.uid ++ ',' :: (natToDec d.gid ++
      ',' :: (qc :: (escape d.path ++ [qc])))) from by
    simp [List.append_assoc]]
  rw [hb]
  have h1 : ((qc :: (escape d.path ++ [qc])).drop 1).dropLast = escape d.path := by
    simp
  simp only [Option.map_some', h1, deEscape_escape]

theorem parseRegularTrailing_canonical (s : Nat) (inodeF algF : List Char)
    (hin : ∀ c ∈ inodeF, isDigitCh c = true)
    (halg : ∀ c ∈ algF, isWordCh c = true) :
    parseRegularTrailing ((',' : Char) :: (natToDec s ++ ',' ::
        (inodeF ++ ',' :: algF))) =
      (some s, (if inodeF = [] then none else some inodeF),
        (if algF = [] then none else some algF)) := by
  have hs := natToDec_all_digit s
  have hstopD : ∀ (r : List Char),
      ((',' : Char) :: r).head?.all (fun c => ¬ isDigitCh c) = true := by
    intro r; simp [isDigitCh_comma]
  simp only [parseRegularTrailing]
  simp only [ne_eq, not_true_eq_false, reduceIte, if_false]
  rw [takeWhile_append_stop hs (hstopD _), dropWhile_append_stop hs (hstopD _)]
  simp only [ne_eq, not_true_eq_false, reduceIte, if_false]
  rw [takeWhile_append_stop hin (hstopD _), dropWhile_append_stop hin (hstopD _)]
  simp only [ne_eq, not_true_eq_false, reduceIte, if_false]
  rw [takeWhile_all_eq_self halg]
  simp [natToDec_ne_nil s, decVal_natToDec]

/-- Round trip for regular-file lines (for entries the encoder can emit:
size present, inode either absent or a nonempty digit string, algorithm tag
either absent or a nonempty word, nonempty hex hash, nonempty path). -/
theorem parse_encode_regular (r : RegularInf) (s : Nat)
    (hnl : nlc ∉ r.path) (hpne : r.path ≠ [])
    (hhne : r.sha256hash ≠ []) (hhw : ∀ c ∈ r.sha256hash, isWordCh c = true)
    (hsize : r.size = some s)
    (hinode : r.inode = none ∨ ∃ i, r.inode = some i ∧ i ≠ [] ∧
      ∀ c ∈ i, isDigitCh c = true)
    (halg : r.compressed_alg = none ∨ ∃ a, r.compressed_alg = some a ∧ a ≠ [] ∧
      ∀ c ∈ a, isWordCh c = true) :
    parseRegularInf (encodeRegularLine r) = some r := by
  have hin2 : ∀ c ∈ (r.inode.getD []), isDigitCh c = true := by
    rcases hinode with h | ⟨i, hi, -, hall⟩
    · simp [h]
    · simpa [hi] using hall
  have halg2 : ∀ c ∈ (r.compressed_alg.getD []), isWordCh c = true := by
    rcases halg with h | ⟨a, ha, -, hall⟩
    · simp [h]
    · simpa [ha] using hall
  have hnlink := natToDec_all_digit r.nlink
  have hsz := natToDec_all_digit s
  have hll : nlc ∉ (natToDec r.nlink ++ ',' :: (r.sha256hash ++ ',' ::
      (qc :: (escape r.path ++ qc :: ',' :: (natToDec s ++ ',' ::
        (r.inode.getD [] ++ ',' :: r.compressed_alg.getD [])))))) := by
    intro hc
    rcases List.mem_append.mp hc with h | h
    · exact nlc_not_mem_digits hnlink h
    · rcases List.mem_cons.mp h with h | h
      · exact absurd h.symm (by decide)
      · rcases List.mem_append.mp h with h | h
        · exact isWordCh_ne_nlc (hhw nlc h) rfl
        · rcases List.mem_cons.mp h with h | h
          · exact absurd h.symm (by decide)
          · rcases List.mem_cons.mp h with h | h
            · exact absurd h.symm (by decide)
            · rcases List.mem_append.mp h with h | h
              · exact nlc_not_mem_escape hnl h
              · rcases List.mem_cons.mp h with h | h
                · exact absurd h.symm (by decide)
                · rcases List.mem_cons.mp h with h | h
                  · exact absurd h.symm (by decide)
                  · rcases List.mem_append.mp h with h | h
                    · exact nlc_not_mem_digits hsz h
                    · rcases List.mem_cons.mp h with h | h
                      · exact absurd h.symm (by decide)
                      · rcases List.mem_append.mp h with h | h
                        · exact nlc_not_mem_digits hin2 h
                        · rcases List.mem_cons.mp h with h | h
                          · exact absurd h.symm (by decide)
                          · exact isWordCh_ne_nlc (halg2 nlc h) rfl
  have hb := parseBase_canonical r.mode r.uid r.gid
    (natToDec r.nlink ++ ',' :: (r.sha256hash ++ ',' ::
      (qc :: (escape r.path ++ qc :: ',' :: (natToDec s ++ ',' ::
        (r.inode.getD [] ++ ',' :: r.compressed_alg.getD [])))))) hll
  have henc : encodeRegularLine r =
      oct4 r.mode ++ ',' :: (natToDec r.uid ++ ',' :: (natToDec r.gid ++ ',' ::
        (natToDec r.nlink ++ ',' :: (r.sha256hash ++ ',' ::
          (qc :: (escape r.path ++ qc :: ',' :: (natToDec s ++ ',' ::
            (r.inode.getD [] ++ ',' :: r.compressed_alg.getD [])))))))) := by
    unfold encodeRegularLine
    rw [encapsulate_nil, hsize]
    simp [List.append_assoc]
  unfold parseRegularInf
  rw [henc, hb]
  have hstopD : ∀ (rr : List Char),
      ((',' : Char) :: rr).head?.all (fun c => ¬ isDigitCh c) = true := by
    intro rr; simp [isDigitCh_comma]
  have hstopW : ∀ (rr : List Char),
      ((',' : Char) :: rr).head?.all (fun c => ¬ isWordCh c) = true := by
    intro rr; simp [isWordCh_comma]
  simp only
  rw [takeWhile_append_stop hnlink (hstopD _),
      dropWhile_append_stop hnlink (hstopD _)]
  rw [if_neg (natToDec_ne_nil r.nlink)]
  simp only [ne_eq, not_true_eq_false, reduceIte, if_false]
  rw [takeWhile_append_stop hhw (hstopW _),
      dropWhile_append_stop hhw (hstopW _)]
  rw [if_neg hhne]
  simp only [ne_eq, not_true_eq_false, reduceIte, if_false]
  have hreg : splitAtLastQuote (escape r.path ++ qc :: ',' :: (natToDec s ++
      ',' :: (r.inode.getD [] ++ ',' :: r.compressed_alg.getD []))) =
      some (escape r.path, ',' :: (natToDec s ++
        ',' :: (r.inode.getD [] ++ ',' :: r.compressed_alg.getD []))) := by
    apply splitAtLastQuote_canonical
    intro hc
    rcases List.mem_cons.mp hc with h | h
    · exact absurd h.symm (by decide)
    · rcases List.mem_append.mp h with h | h
      · exact absurd (hsz qc h) (by decide)
      · rcases List.mem_cons.mp h with h | h
        · exact absurd h.symm (by decide)
        · rcases List.mem_append.mp h with h | h
          · exact absurd (hin2 qc h) (by decide)
          · rcases List.mem_cons.mp h with h | h
            · exact absurd h.symm (by decide)
            · exact absurd (halg2 qc h) (by rw [isWordCh_qc]; simp)
  rw [hreg]
  have hene := escape_ne_nil hpne
  simp only [hene, reduceIte, if_false]
  rw [parseRegularTrailing_canonical s _ _ hin2 halg2]
  rw [deEscape_escape]
  rcases hinode with hi | ⟨i, hi, hine, -⟩
  · rcases halg with ha | ⟨a, ha, hane, -⟩
    · simp [hi, ha, hsize.symm, decVal_natToDec]
      obtain ⟨m0, u0, g0, n0, h0, p0, s0, i0, a0⟩ := r
      simp_all
    · simp [hi, ha, hane, hsize.symm, decVal_natToDec]
      obtain ⟨m0, u0, g0, n0, h0, p0, s0, i0, a0⟩ := r
      simp_all
  · rcases halg with ha | ⟨a, ha, hane, -⟩
    · simp [hi, ha, hine, hsize.symm, decVal_natToDec]
      obtain ⟨m0, u0, g0, n0, h0, p0, s0, i0, a0⟩ := r
      simp_all
    · simp [hi, ha, hine, hane, hsize.symm, decVal_natToDec]
      obtain ⟨m0, u0, g0, n0, h0, p0, s0, i0, a0⟩ := r
      simp_all

/-- If a viable separator decomposition exists for the canonical encoded
symlink field region, its prefix is exactly the opening quote plus the
escaped link.  `L` and `T` are the escaped link and target; the comma
hypotheses are the block structure facts provided by `escape_comma_ctx`. -/
theorem sep_decomp_unique (L T u v : List Char)
    (HT1 : T ≠ [])
    (hu3 : u.getLast? ≠ some qc)
    (hv4 : ((v.drop 1).contains qc) = true)
    (HLcomma : ∀ a b : List Char, L = a ++ (',' : Char) :: b →
      a.getLast? = some qc → ∃ a2, a = a2 ++ [qc, qc])
    (HTcomma : ∀ a b : List Char, T = a ++ (',' : Char) :: b →
      a.getLast? = some qc → ∃ a2, a = a2 ++ [qc, qc])
    (HT2 : T.take 2 ≠ [(',' : Char), qc])
    (hu2 : 2 ≤ u.length)
    (heq : qc :: (L ++ ([qc, ',', qc] ++ (T ++ [qc]))) = u ++ ([qc, ',', qc] ++ v)) :
    u = qc :: L := by
  cases u with
  | nil => simp at hu2
  | cons x u' =>
    simp only [List.cons_append] at heq
    simp only [List.cons.injEq] at heq
    obtain ⟨hx, heq'⟩ := heq
    subst hx
    rcases List.append_eq_append_iff.mp heq' with ⟨w, hw1, hw2⟩ | ⟨w, hw1, hw2⟩
    · -- the separator is at or beyond the canonical position
      cases w with
      | nil => simp [hw1]
      | cons x1 w1 =>
        simp only [List.cons_append, List.cons.injEq, List.nil_append] at hw2
        obtain ⟨hx1, hw2⟩ := hw2
        subst hx1
        cases w1 with
        | nil =>
          simp only [List.nil_append, List.cons.injEq] at hw2
          exact absurd hw2.1 (by decide)
        | cons x2 w2 =>
          simp only [List.cons_append, List.cons.injEq] at hw2
          obtain ⟨hx2, hw2⟩ := hw2
          subst hx2
          cases w2 with
          | nil =>
            -- separator two characters past the canonical one:
            -- forces the target to start with comma-quote
            simp only [List.nil_append, List.cons.injEq] at hw2
            obtain ⟨-, hw2⟩ := hw2
            cases T with
            | nil => exact absurd rfl HT1
            | cons y T1 =>
              simp only [List.cons_append, List.cons.injEq] at hw2
              obtain ⟨hy, hw2⟩ := hw2
              cases T1 with
              | nil =>
                simp only [List.nil_append, List.cons.injEq] at hw2
                obtain ⟨-, hv⟩ := hw2
                rw [← hv] at hv4
                simp at hv4
              | cons z T2 =>
                simp only [List.cons_append, List.cons.injEq] at hw2
                obtain ⟨hz, -⟩ := hw2
                exact absurd (by rw [← hy, ← hz]; rfl) HT2
          | cons x3 w3 =>
            simp only [List.cons_append, List.cons.injEq] at hw2
            obtain ⟨hx3, hw2⟩ := hw2
            subst hx3
            -- the separator would lie inside the escaped target region
            have hw2' : T ++ [qc] = (w3 ++ [qc, ',']) ++ (qc :: v) := by
              rw [hw2]; simp
            rcases List.append_eq_append_iff.mp hw2' with ⟨e, he1, he2⟩ | ⟨e, he1, he2⟩
            · -- the final quote region is too short unless v is empty
              have hlen := congrArg List.length he2
              simp at hlen
              have hv : v = [] := by
                have hv0 : v.length = 0 := by omega
                exact List.length_eq_zero.mp hv0
              rw [hv] at hv4
              simp at hv4
            · -- a comma inside the escaped target: blocked by the lookbehind
              have he1' : T = (w3 ++ [qc]) ++ (',' : Char) :: e := by
                rw [he1]; simp
              rcases HTcomma (w3 ++ [qc]) e he1' (List.getLast?_concat _) with ⟨a2, ha2⟩
              have hw3 : w3 = a2 ++ [qc] := by
                have := congrArg List.dropLast ha2
                simpa using this
              apply absurd _ hu3
              rw [hw1, hw3]
              have : qc :: (L ++ (qc :: ',' :: qc :: (a2 ++ [qc]))) =
                  (qc :: (L ++ (qc :: ',' :: qc :: a2))) ++ [qc] := by
                simp
              rw [this, List.getLast?_concat]
    · -- the separator is at or before the canonical position
      cases w with
      | nil =>
        have h0 : L = u' := by simpa using hw1
        simp [h0.symm]
      | cons x1 w1 =>
        simp only [List.cons_append, List.cons.injEq, List.nil_append] at hw2
        obtain ⟨hx1, hw2⟩ := hw2
        subst hx1
        cases w1 with
        | nil =>
          simp only [List.nil_append, List.cons.injEq] at hw2
          exact absurd hw2.1 (by decide)
        | cons x2 w2 =>
          simp only [List.cons_append, List.cons.injEq] at hw2
          obtain ⟨hx2, hw2⟩ := hw2
          subst hx2
          cases w2 with
          | nil =>
            -- L would end with quote-comma: blocked by the block structure
            have hL : L = (u' ++ [qc]) ++ (',' : Char) :: [] := by
              rw [hw1]; simp
            rcases HLcomma (u' ++ [qc]) [] hL (List.getLast?_concat _) with ⟨a2, ha2⟩
            have hu' : u' = a2 ++ [qc] := by
              have := congrArg List.dropLast ha2
              simpa using this
            apply absurd _ hu3
            rw [hu']
            have : qc :: (a2 ++ [qc]) = (qc :: a2) ++ [qc] := by simp
            rw [this, List.getLast?_concat]
          | cons x3 w3 =>
            simp only [List.cons_append, List.cons.injEq] at hw2
            obtain ⟨hx3, hw2⟩ := hw2
            subst hx3
            -- a comma inside the escaped link: blocked by the block structure
            have hL : L = (u' ++ [qc]) ++ (',' : Char) :: (qc :: w3) := by
              rw [hw1]; simp
            rcases HLcomma (u' ++ [qc]) (qc :: w3) hL (List.getLast?_concat _) with ⟨a2, ha2⟩
            have hu' : u' = a2 ++ [qc] := by
              have := congrArg List.dropLast ha2
              simpa using this
            apply absurd _ hu3
            rw [hu']
            have : qc :: (a2 ++ [qc]) = (qc :: a2) ++ [qc] := by simp
            rw [this, List.getLast?_concat]

theorem getLast?_cons_of_ne_nil {a : Char} {l : List Char} (h : l ≠ []) :
    (a :: l).getLast? = l.getLast? := by
  cases l with
  | nil => exact absurd rfl h
  | cons b t => exact List.getLast?_cons_cons

theorem range_filter_beq (n i0 : Nat) (h : i0 < n) :
    (List.range n).filter (fun i => i == i0) = [i0] := by
  induction n with
  | zero => omega
  | succ n ih =>
    rw [List.range_succ, List.filter_append]
    by_cases h2 : i0 < n
    · rw [ih h2]
      have hne : (n == i0) = false := by
        simp only [beq_eq_false_iff_ne, ne_eq]
        omega
      simp [hne]
    · have hin : i0 = n := by omega
      subst hin
      have hnil : (List.range i0).filter (fun i => i == i0) = [] := by
        rw [List.filter_eq_nil_iff]
        intro a ha
        have := List.mem_range.mp ha
        simp only [beq_iff_eq]
        omega
      simp [hnil]

/-- Any viable separator position in the canonical encoded symlink field
region is the canonical one. -/
theorem sepViable_imp_canonical (L T : List Char)
    (HT1 : T ≠ [])
    (HLcomma : ∀ a b : List Char, L = a ++ (',' : Char) :: b →
      a.getLast? = some qc → ∃ a2, a = a2 ++ [qc, qc])
    (HTcomma : ∀ a b : List Char, T = a ++ (',' : Char) :: b →
      a.getLast? = some qc → ∃ a2, a = a2 ++ [qc, qc])
    (HT2 : T.take 2 ≠ [(',' : Char), qc])
    (i : Nat)
    (h : sepViable ((qc :: (L ++ ([qc, ',', qc] ++ (T ++ [qc])))).take i)
      ((qc :: (L ++ ([qc, ',', qc] ++ (T ++ [qc])))).drop i) = true) :
    i = L.length + 1 := by
  unfold sepViable at h
  simp only [Bool.and_eq_true, decide_eq_true_eq] at h
  obtain ⟨⟨⟨h1, h2⟩, h3⟩, h4⟩ := h
  have hi : i < (qc :: (L ++ ([qc, ',', qc] ++ (T ++ [qc])))).length := by
    by_contra hcon
    push_neg at hcon
    rw [List.drop_eq_nil_of_le hcon] at h2
    simp at h2
  have hsplit : (qc :: (L ++ ([qc, ',', qc] ++ (T ++ [qc])))).drop i =
      [qc, ',', qc] ++ (qc :: (L ++ ([qc, ',', qc] ++ (T ++ [qc])))).drop (i + 3) := by
    conv_lhs => rw [← List.take_append_drop 3
      ((qc :: (L ++ ([qc, ',', qc] ++ (T ++ [qc])))).drop i)]
    rw [h2, List.drop_drop]
  have heq : qc :: (L ++ ([qc, ',', qc] ++ (T ++ [qc]))) =
      (qc :: (L ++ ([qc, ',', qc] ++ (T ++ [qc])))).take i ++
        ([qc, ',', qc] ++ (qc :: (L ++ ([qc, ',', qc] ++ (T ++ [qc])))).drop (i + 3)) := by
    conv_lhs => rw [← List.take_append_drop i
      (qc :: (L ++ ([qc, ',', qc] ++ (T ++ [qc]))))]
    rw [hsplit]
  have h4' : (((qc :: (L ++ ([qc, ',', qc] ++ (T ++ [qc])))).drop (i + 3)).drop 1).contains
      qc = true := by
    rw [hsplit] at h4
    exact h4
  have hu := sep_decomp_unique L T
    ((qc :: (L ++ ([qc, ',', qc] ++ (T ++ [qc])))).take i)
    ((qc :: (L ++ ([qc, ',', qc] ++ (T ++ [qc])))).drop (i + 3))
    HT1 h3 h4' HLcomma HTcomma HT2 h1 heq
  have hlen := congrArg List.length hu
  simp only [List.length_take, List.length_cons, List.length_append] at hlen
  simp only [List.length_cons, List.length_append] at hi
  omega

/-- The canonical separator position is viable. -/
theorem sepViable_canonical (L T : List Char) (HL1 : L ≠ []) (HT1 : T ≠ [])
    (HL2 : L.getLast? ≠ some qc) :
    sepViable ((qc :: (L ++ ([qc, ',', qc] ++ (T ++ [qc])))).take (L.length + 1))
      ((qc :: (L ++ ([qc, ',', qc] ++ (T ++ [qc])))).drop (L.length + 1)) = true := by
  have htake : (qc :: (L ++ ([qc, ',', qc] ++ (T ++ [qc])))).take (L.length + 1) =
      qc :: L := by
    rw [List.take_succ_cons]
    congr 1
    exact List.take_left L _
  have hdrop : (qc :: (L ++ ([qc, ',', qc] ++ (T ++ [qc])))).drop (L.length + 1) =
      [qc, ',', qc] ++ (T ++ [qc]) := by
    rw [List.drop_succ_cons]
    exact List.drop_left L _
  rw [htake, hdrop]
  unfold sepViable
  simp only [Bool.and_eq_true, decide_eq_true_eq]
  refine ⟨⟨⟨?_, ?_⟩, ?_⟩, ?_⟩
  · simp only [List.length_cons]
    have : 0 < L.length := List.length_pos.mpr HL1
    omega
  · rfl
  · rw [getLast?_cons_of_ne_nil HL1]
    exact HL2
  · show (((qc :: (',' :: (qc :: (T ++ [qc]))) : List Char).drop 4).contains qc) = true
    cases T with
    | nil => exact absurd rfl HT1
    | cons c T1 =>
      simp [List.contains_eq_any_beq]

/-- The symlink field parser recovers the two escaped fields from a
canonically encoded field region. -/
theorem parseSymPair_canonical (L T : List Char)
    (HL1 : L ≠ []) (HT1 : T ≠ [])
    (HL2 : L.getLast? ≠ some qc)
    (HLcomma : ∀ a b : List Char, L = a ++ (',' : Char) :: b →
      a.getLast? = some qc → ∃ a2, a = a2 ++ [qc, qc])
    (HTcomma : ∀ a b : List Char, T = a ++ (',' : Char) :: b →
      a.getLast? = some qc → ∃ a2, a = a2 ++ [qc, qc])
    (HT2 : T.take 2 ≠ [(',' : Char), qc]) :
    parseSymPair (qc :: (L ++ ([qc, ',', qc] ++ (T ++ [qc])))) = some (L, T) := by
  have htake : (qc :: (L ++ ([qc, ',', qc] ++ (T ++ [qc])))).take (L.length + 1) =
      qc :: L := by
    rw [List.take_succ_cons]
    congr 1
    exact List.take_left L _
  have hdrop : (qc :: (L ++ ([qc, ',', qc] ++ (T ++ [qc])))).drop (L.length + 1) =
      [qc, ',', qc] ++ (T ++ [qc]) := by
    rw [List.drop_succ_cons]
    exact List.drop_left L _
  have hic_lt : L.length + 1 < (qc :: (L ++ ([qc, ',', qc] ++ (T ++ [qc])))).length + 1 := by
    simp only [List.length_cons, List.length_append]
    omega
  have hpointwise : ∀ i ∈ List.range ((qc :: (L ++ ([qc, ',', qc] ++ (T ++ [qc])))).length + 1),
      sepViable ((qc :: (L ++ ([qc, ',', qc] ++ (T ++ [qc])))).take i)
        ((qc :: (L ++ ([qc, ',', qc] ++ (T ++ [qc])))).drop i) =
      (i == L.length + 1) := by
    intro i hi
    by_cases hieq : i = L.length + 1
    · subst hieq
      rw [sepViable_canonical L T HL1 HT1 HL2]
      simp
    · cases hsv : sepViable ((qc :: (L ++ ([qc, ',', qc] ++ (T ++ [qc])))).take i)
        ((qc :: (L ++ ([qc, ',', qc] ++ (T ++ [qc])))).drop i) with
      | true =>
        exact absurd (sepViable_imp_canonical L T HT1 HLcomma HTcomma HT2 i hsv) hieq
      | false =>
        symm
        simp only [beq_eq_false_iff_ne, ne_eq]
        exact hieq
  have hfilter : ((allSplits (qc :: (L ++ ([qc, ',', qc] ++ (T ++ [qc]))))).filter
      fun pr => sepViable pr.1 pr.2) =
      [(qc :: L, [qc, ',', qc] ++ (T ++ [qc]))] := by
    unfold allSplits
    rw [List.filter_map]
    have hcg : List.filter ((fun pr => sepViable pr.1 pr.2) ∘
        (fun i => ((qc :: (L ++ ([qc, ',', qc] ++ (T ++ [qc])))).take i,
          (qc :: (L ++ ([qc, ',', qc] ++ (T ++ [qc])))).drop i)))
        (List.range ((qc :: (L ++ ([qc, ',', qc] ++ (T ++ [qc])))).length + 1)) =
        List.filter (fun i => i == L.length + 1)
        (List.range ((qc :: (L ++ ([qc, ',', qc] ++ (T ++ [qc])))).length + 1)) :=
      List.filter_congr hpointwise
    rw [hcg, range_filter_beq _ _ hic_lt]
    simp [htake, hdrop]
  unfold parseSymPair
  rw [if_neg (by simp)]
  rw [hfilter]
  simp only [List.getLast?_singleton]
  have hdrop3 : ([qc, ',', qc] ++ (T ++ [qc])).drop 3 = T ++ [qc] := by
    simp
  rw [hdrop3]
  have hsplit : splitAtLastQuote (T ++ [qc]) = some (T, []) := by
    have := splitAtLastQuote_canonical T [] (by simp)
    simpa using this
  rw [hsplit]
  simp [HT1]

/-- Round trip for symlink lines, for entries whose link path does not end
in a single quote and whose target does not begin with comma-quote (the two
shapes on which the separator search misfires). -/
theorem parse_encode_symlink (sl : SymbolicLinkInf)
    (hnl1 : nlc ∉ sl.slink) (hnl2 : nlc ∉ sl.srcpath)
    (hne1 : sl.slink ≠ []) (hne2 : sl.srcpath ≠ [])
    (hlast : sl.slink.getLast? ≠ some qc)
    (hstart : sl.srcpath.take 2 ≠ [(',' : Char), qc]) :
    parseSymbolicLinkInf (encodeSymlinkLine sl) = some sl := by
  have hll : nlc ∉ (qc :: (escape sl.slink ++ ([qc, ',', qc] ++
      (escape sl.srcpath ++ [qc])))) := by
    intro hc
    rcases List.mem_cons.mp hc with h | h
    · exact absurd h.symm (by decide)
    · rcases List.mem_append.mp h with h | h
      · exact nlc_not_mem_escape hnl1 h
      · rcases List.mem_append.mp h with h | h
        · simp at h
          rcases h with h | h | h <;> exact absurd h.symm (by decide)
        · rcases List.mem_append.mp h with h | h
          · exact nlc_not_mem_escape hnl2 h
          · simp at h
            exact absurd h.symm (by decide)
  have hb := parseBase_canonical sl.mode sl.uid sl.gid
    (qc :: (escape sl.slink ++ ([qc, ',', qc] ++ (escape sl.srcpath ++ [qc])))) hll
  have henc : encodeSymlinkLine sl =
      oct4 sl.mode ++ ',' :: (natToDec sl.uid ++ ',' :: (natToDec sl.gid ++ ',' ::
        (qc :: (escape sl.slink ++ ([qc, ',', qc] ++ (escape sl.srcpath ++ [qc])))))) := by
    unfold encodeSymlinkLine
    rw [encapsulate_nil, encapsulate_nil]
    simp [List.append_assoc]
  unfold parseSymbolicLinkInf
  rw [henc, hb]
  simp only
  have hpair := parseSymPair_canonical (escape sl.slink) (escape sl.srcpath)
    (escape_ne_nil hne1) (escape_ne_nil hne2)
    (fun hcon => hlast ((escape_getLast_qc_iff hne1).mp hcon))
    (escape_comma_ctx sl.slink) (escape_comma_ctx sl.srcpath)
    (fun hcon => hstart (escape_take2_comma_qc hcon))
  rw [hpair]
  simp only [deEscape_escape]

/-- General shape lemma for regular lines: a canonical prefix
`mode,uid,gid,nlink,hash,'path'` followed by an arbitrary quote-free,
newline-free trailing region parses with the trailing fields decoded by
`parseRegularTrailing`. -/
theorem parseRegularInf_canonical (mode uid gid nlink : Nat)
    (hash path t : List Char)
    (hhne : hash ≠ []) (hhw : ∀ c ∈ hash, isWordCh c = true)
    (hpne : path ≠ []) (hnl : nlc ∉ path)
    (hqt : qc ∉ t) (hnlt : nlc ∉ t) :
    parseRegularInf (oct4 mode ++ ',' :: (natToDec uid ++ ',' :: (natToDec gid ++
      ',' :: (natToDec nlink ++ ',' :: (hash ++ ',' ::
        (qc :: (escape path ++ qc :: t))))))) =
      some ⟨mode, uid, gid, nlink, hash, path, (parseRegularTrailing t).1,
        (parseRegularTrailing t).2.1, (parseRegularTrailing t).2.2⟩ := by
  have hnlink := natToDec_all_digit nlink
  have hll : nlc ∉ (natToDec nlink ++ ',' :: (hash ++ ',' ::
      (qc :: (escape path ++ qc :: t)))) := by
    intro hc
    rcases List.mem_append.mp hc with h | h
    · exact nlc_not_mem_digits hnlink h
    · rcases List.mem_cons.mp h with h | h
      · exact absurd h.symm (by decide)
      · rcases List.mem_append.mp h with h | h
        · exact isWordCh_ne_nlc (hhw nlc h) rfl
        · rcases List.mem_cons.mp h with h | h
          · exact absurd h.symm (by decide)
          · rcases List.mem_cons.mp h with h | h
            · exact absurd h.symm (by decide)
            · rcases List.mem_append.mp h with h | h
              · exact nlc_not_mem_escape hnl h
              · rcases List.mem_cons.mp h with h | h
                · exact absurd h.symm (by decide)
                · exact hnlt h
  have hb := parseBase_canonical mode uid gid
    (natToDec nlink ++ ',' :: (hash ++ ',' ::
      (qc :: (escape path ++ qc :: t)))) hll
  unfold parseRegularInf
  rw [hb]
  have hstopD : ∀ (rr : List Char),
      ((',' : Char) :: rr).head?.all (fun c => ¬ isDigitCh c) = true := by
    intro rr; simp [isDigitCh_comma]
  have hstopW : ∀ (rr : List Char),
      ((',' : Char) :: rr).head?.all (fun c => ¬ isWordCh c) = true := by
    intro rr; simp [isWordCh_comma]
  simp only
  rw [takeWhile_append_stop hnlink (hstopD _),
      dropWhile_append_stop hnlink (hstopD _)]
  rw [if_neg (natToDec_ne_nil nlink)]
  simp only [ne_eq, not_true_eq_false, reduceIte, if_false]
  rw [takeWhile_append_stop hhw (hstopW _),
      dropWhile_append_stop hhw (hstopW _)]
  rw [if_neg hhne]
  simp only [ne_eq, not_true_eq_false, reduceIte, if_false]
  rw [splitAtLastQuote_canonical (escape path) t hqt]
  have hene := escape_ne_nil hpne
  simp only [hene, reduceIte, if_false]
  rw [deEscape_escape]
  simp [decVal_natToDec]

/-- A sample symlink entry whose link path ends in a single quote. -/
def c1CexEntry : SymbolicLinkInf :=
  ⟨511, 0, 0, [Char.ofNat 97, qc], [Char.ofNat 98]⟩

/-- Claim C1, counterexample: the round-trip law fails as stated.  For the
symlink entry with link path `a` followed by a single quote and target `b`
(an entry whose path contains a single quote, which the claim explicitly
includes), the encoded line does not parse back: the negative lookbehind in
`SymbolicLinkInf._pattern` rejects the only quote-comma-quote separator
because the escaped link field ends in a quote, so the regex match fails
(`assert res is not None` raises) instead of returning the entry. -/
theorem c1_round_trip_counterexample :
    parseSymbolicLinkInf (encodeSymlinkLine c1CexEntry) = none ∧
    parseSymbolicLinkInf (encodeSymlinkLine c1CexEntry) ≠ some c1CexEntry := by
  constructor
  · rfl
  · decide

/-- Claim C1 (amended): `parse(encode(e)) = e` holds for every representable
directory and regular entry (paths may contain single quotes, commas and
leading or trailing spaces), and for every representable symlink entry
except the two shapes on which the separator search of
`SymbolicLinkInf._pattern` misfires: a link path ending in a single quote,
or a target path beginning with the two characters comma, single-quote.
Representable means: permission mode below 0o10000, nonempty paths without
newlines, a nonempty word-character hash, size present, and inode/alg
fields absent or nonempty digit/word strings, as the encoder emits. -/
theorem c1_round_trip_amended :
    (∀ d : DirectoryInf, d.mode < 4096 → nlc ∉ d.path →
      parseDirectoryInf (encodeDirLine d) = some d) ∧
    (∀ (r : RegularInf) (s : Nat), r.mode < 4096 →
      nlc ∉ r.path → r.path ≠ [] →
      r.sha256hash ≠ [] → (∀ c ∈ r.sha256hash, isWordCh c = true) →
      r.size = some s →
      (r.inode = none ∨ ∃ i, r.inode = some i ∧ i ≠ [] ∧
        ∀ c ∈ i, isDigitCh c = true) →
      (r.compressed_alg = none ∨ ∃ a, r.compressed_alg = some a ∧ a ≠ [] ∧
        ∀ c ∈ a, isWordCh c = true) →
      parseRegularInf (encodeRegularLine r) = some r) ∧
    (∀ sl : SymbolicLinkInf, sl.mode < 4096 →
      nlc ∉ sl.slink → nlc ∉ sl.srcpath →
      sl.slink ≠ [] → sl.srcpath ≠ [] →
      sl.slink.getLast? ≠ some qc →
      sl.srcpath.take 2 ≠ [(',' : Char), qc] →
      parseSymbolicLinkInf (encodeSymlinkLine sl) = some sl) := by
  refine ⟨?_, ?_, ?_⟩
  · intro d hm hnl
    exact parse_encode_dir d hnl
  · intro r s hm hnl hpne hhne hhw hsize hinode halg
    exact parse_encode_regular r s hnl hpne hhne hhw hsize hinode halg
  · intro sl hm h1 h2 h3 h4 h5 h6
    exact parse_encode_symlink sl h1 h2 h3 h4 h5 h6

/-- Sample entries exercising quotes, commas and spaces in paths. -/
def c1DirEx : DirectoryInf :=
  ⟨493, 1000, 1000, [Char.ofNat 97, qc, ',', Char.ofNat 32, Char.ofNat 98]⟩

def c1RegEx : RegularInf :=
  ⟨420, 1000, 1000, 2, (String.toList "abc123"),
    [Char.ofNat 32, qc, ',', Char.ofNat 120], some 1234,
    some (String.toList "42"), some (String.toList "zst")⟩

def c1SymEx : SymbolicLinkInf :=
  ⟨511, 0, 0, [qc, Char.ofNat 97, Char.ofNat 32],
    [Char.ofNat 98, ',', qc, Char.ofNat 99]⟩

/-- Claim C1, witness: the amended round-trip law applied to concrete
entries containing single quotes, commas and spaces. -/
theorem c1_round_trip_witness :
    parseDirectoryInf (encodeDirLine c1DirEx) = some c1DirEx ∧
    parseRegularInf (encodeRegularLine c1RegEx) = some c1RegEx ∧
    parseSymbolicLinkInf (encodeSymlinkLine c1SymEx) = some c1SymEx :=
  ⟨c1_round_trip_amended.1 c1DirEx (by decide) (by decide),
   c1_round_trip_amended.2.1 c1RegEx 1234 (by decide) (by decide) (by decide)
     (by decide) (by decide) (by decide)
     (Or.inr ⟨String.toList "42", by decide, by decide, by decide⟩)
     (Or.inr ⟨String.toList "zst", by decide, by decide, by decide⟩),
   c1_round_trip_amended.2.2 c1SymEx (by decide) (by decide) (by decide)
     (by decide) (by decide) (by decide) (by decide)⟩

/-- Claim C4: a regular manifest line with all trailing fields from `size`
onward omitted parses successfully, the omitted fields decoding to absent;
and a line with an empty inode field between two commas but a later
`compress_alg` field present parses with inode absent and the algorithm tag
still recovered. -/
theorem c4_regular_optional_trailing_fields :
    (∀ (mode uid gid nlink : Nat) (hash path : List Char),
      mode < 4096 → hash ≠ [] → (∀ c ∈ hash, isWordCh c = true) →
      path ≠ [] → nlc ∉ path →
      parseRegularInf (oct4 mode ++ ',' :: (natToDec uid ++ ',' ::
          (natToDec gid ++ ',' :: (natToDec nlink ++ ',' :: (hash ++ ',' ::
            (qc :: (escape path ++ qc :: ([] : List Char)))))))) =
        some ⟨mode, uid, gid, nlink, hash, path, none, none, none⟩) ∧
    (∀ (mode uid gid nlink size : Nat) (hash path alg : List Char),
      mode < 4096 → hash ≠ [] → (∀ c ∈ hash, isWordCh c = true) →
      path ≠ [] → nlc ∉ path →
      alg ≠ [] → (∀ c ∈ alg, isWordCh c = true) →
      parseRegularInf (oct4 mode ++ ',' :: (natToDec uid ++ ',' ::
          (natToDec gid ++ ',' :: (natToDec nlink ++ ',' :: (hash ++ ',' ::
            (qc :: (escape path ++ qc :: ',' ::
              (natToDec size ++ ',' :: ',' :: alg)))))))) =
        some ⟨mode, uid, gid, nlink, hash, path, some size, none, some alg⟩) := by
  constructor
  · intro mode uid gid nlink hash path hm hhne hhw hpne hnl
    rw [parseRegularInf_canonical mode uid gid nlink hash path []
      hhne hhw hpne hnl (by simp) (by simp)]
    rfl
  · intro mode uid gid nlink size hash path alg hm hhne hhw hpne hnl hane haw
    have ht : (((',' : Char) :: (natToDec size ++ ',' :: (([] : List Char) ++
        ',' :: alg)))) = ((',' : Char) :: (natToDec size ++ ',' :: ',' :: alg)) := by
      simp
    have hqt : qc ∉ ((',' : Char) :: (natToDec size ++ ',' :: ',' :: alg)) := by
      intro hc
      rcases List.mem_cons.mp hc with h | h
      · exact absurd h.symm (by decide)
      · rcases List.mem_append.mp h with h | h
        · exact absurd (natToDec_all_digit size qc h) (by decide)
        · rcases List.mem_cons.mp h with h | h
          · exact absurd h.symm (by decide)
          · rcases List.mem_cons.mp h with h | h
            · exact absurd h.symm (by decide)
            · exact absurd (haw qc h) (by rw [isWordCh_qc]; simp)
    have hnlt : nlc ∉ ((',' : Char) :: (natToDec size ++ ',' :: ',' :: alg)) := by
      intro hc
      rcases List.mem_cons.mp hc with h | h
      · exact absurd h.symm (by decide)
      · rcases List.mem_append.mp h with h | h
        · exact nlc_not_mem_digits (natToDec_all_digit size) h
        · rcases List.mem_cons.mp h with h | h
          · exact absurd h.symm (by decide)
          · rcases List.mem_cons.mp h with h | h
            · exact absurd h.symm (by decide)
            · exact isWordCh_ne_nlc (haw nlc h) rfl
    rw [parseRegularInf_canonical mode uid gid nlink hash path
      ((',' : Char) :: (natToDec size ++ ',' :: ',' :: alg))
      hhne hhw hpne hnl hqt hnlt]
    have htr := parseRegularTrailing_canonical size [] alg (by simp) haw
    simp only [List.nil_append] at htr
    rw [htr]
    simp [hane]

/-- Claim C4, witness: both optional-field behaviours on a concrete line. -/
theorem c4_regular_optional_trailing_fields_witness :
    parseRegularInf (oct4 420 ++ ',' :: (natToDec 1000 ++ ',' ::
        (natToDec 1000 ++ ',' :: (natToDec 1 ++ ',' ::
          ((String.toList "abcd") ++ ',' ::
            (qc :: (escape (String.toList "f.txt") ++ qc :: ([] : List Char)))))))) =
      some ⟨420, 1000, 1000, 1, String.toList "abcd", String.toList "f.txt",
        none, none, none⟩ ∧
    parseRegularInf (oct4 420 ++ ',' :: (natToDec 1000 ++ ',' ::
        (natToDec 1000 ++ ',' :: (natToDec 1 ++ ',' ::
          ((String.toList "abcd") ++ ',' ::
            (qc :: (escape (String.toList "f.txt") ++ qc :: ',' ::
              (natToDec 100 ++ ',' :: ',' :: String.toList "zst")))))))) =
      some ⟨420, 1000, 1000, 1, String.toList "abcd", String.toList "f.txt",
        some 100, none, some (String.toList "zst")⟩ :=
  ⟨c4_regular_optional_trailing_fields.1 420 1000 1000 1 (String.toList "abcd")
      (String.toList "f.txt") (by decide) (by decide) (by decide) (by decide)
      (by decide),
   c4_regular_optional_trailing_fields.2 420 1000 1000 1 100
      (String.toList "abcd") (String.toList "f.txt") (String.toList "zst")
      (by decide) (by decide) (by decide) (by decide) (by decide) (by decide)
      (by decide)⟩

/-- Filesystem operations performed by the reconstructor (data_gen.py). -/
inductive FsAction where
  | makedirs (path : List Char) (mode : Nat)
  | chown (path : List Char) (uid gid : Nat)
  | chmod (path : List Char) (mode : Nat)
  | symlink (target path : List Char)
  | lchown (path : List Char) (uid gid : Nat)
  | copyFile (src dst : List Char)
  | hardlink (src dst : List Char)
deriving DecidableEq, Repr

/-- Lookup in the `links_dict` association list (most recent binding first,
mirroring dict semantics since each key is inserted at most once). -/
def lookupKey (k : List Char) : List (List Char × List Char) → Option (List Char)
  | [] => none
  | (k2, v) :: rest => if k2 = k then some v else lookupKey k rest

/-- The link-group key of `_gen_regulars`:
`inf.inode if inf.inode is not None else inf.sha256hash`. -/
def linkKey (inf : RegularInf) : List Char := inf.inode.getD inf.sha256hash

/-- One iteration of the `_gen_regulars` loop (data_gen.py lines 128-141):
unseen key: copy bytes, chown, chmod, and register the destination as a
hardlink source only when `nlink >= 2`; seen key: hardlink to the
registered destination. -/
def genRegularStep (dstDir srcDir : List Char)
    (dict : List (List Char × List Char)) (inf : RegularInf) :
    List FsAction × List (List Char × List Char) :=
  match lookupKey (linkKey inf) dict with
  | some src => ([FsAction.hardlink src (dstDir ++ inf.path)], dict)
  | none =>
    ([FsAction.copyFile (srcDir ++ inf.path) (dstDir ++ inf.path),
      FsAction.chown (dstDir ++ inf.path) inf.uid inf.gid,
      FsAction.chmod (dstDir ++ inf.path) inf.mode],
     if 2 ≤ inf.nlink then (linkKey inf, dstDir ++ inf.path) :: dict else dict)

/-- The `_gen_regulars` fold over parsed entries, producing the action
trace.  Entries are processed in file order. -/
def genRegularsGo (dstDir srcDir : List Char)
    (dict : List (List Char × List Char)) : List RegularInf → List FsAction
  | [] => []
  | inf :: rest =>
    (genRegularStep dstDir srcDir dict inf).1 ++
      genRegularsGo dstDir srcDir (genRegularStep dstDir srcDir dict inf).2 rest

/-- The `links_dict` state after processing a list of entries. -/
def dictAfter (dstDir srcDir : List Char)
    (dict : List (List Char × List Char)) : List RegularInf →
      List (List Char × List Char)
  | [] => dict
  | inf :: rest =>
    dictAfter dstDir srcDir (genRegularStep dstDir srcDir dict inf).2 rest

/-- `_gen_regulars` on parsed entries, from the empty dictionary. -/
def genRegulars (dstDir srcDir : List Char) (infs : List RegularInf) :
    List FsAction :=
  genRegularsGo dstDir srcDir [] infs

/-- Inode-level semantics of the actions: a copy creates a fresh inode at
the destination, a hardlink binds the destination to the source's inode
(failing like `os.link` when the source does not exist); metadata
operations do not change the inode map. -/
structure FsState where
  inodes : List (List Char × Nat)
  fresh : Nat
deriving DecidableEq, Repr

def lookupInode (p : List Char) : List (List Char × Nat) → Option Nat
  | [] => none
  | (p2, v) :: rest => if p2 = p then some v else lookupInode p rest

def applyAction (s : FsState) : FsAction → Option FsState
  | FsAction.copyFile _ dst => some ⟨(dst, s.fresh) :: s.inodes, s.fresh + 1⟩
  | FsAction.hardlink src dst =>
    match lookupInode src s.inodes with
    | none => none
    | some i => some ⟨(dst, i) :: s.inodes, s.fresh⟩
  | _ => some s

def applyActions : FsState → List FsAction → Option FsState
  | s, [] => some s
  | s, a :: rest =>
    match applyAction s a with
    | none => none
    | some s2 => applyActions s2 rest

theorem genRegularsGo_append (dstDir srcDir : List Char)
    (dict : List (List Char × List Char)) (l1 l2 : List RegularInf) :
    genRegularsGo dstDir srcDir dict (l1 ++ l2) =
      genRegularsGo dstDir srcDir dict l1 ++
        genRegularsGo dstDir srcDir (dictAfter dstDir srcDir dict l1) l2 := by
  induction l1 generalizing dict with
  | nil => simp [genRegularsGo, dictAfter]
  | cons inf rest ih =>
    show (genRegularStep dstDir srcDir dict inf).1 ++
        genRegularsGo dstDir srcDir (genRegularStep dstDir srcDir dict inf).2
          (rest ++ l2) =
      ((genRegularStep dstDir srcDir dict inf).1 ++
        genRegularsGo dstDir srcDir (genRegularStep dstDir srcDir dict inf).2
          rest) ++
        genRegularsGo dstDir srcDir (dictAfter dstDir srcDir
          (genRegularStep dstDir srcDir dict inf).2 rest) l2
    rw [ih, List.append_assoc]

/-- The registrant predicate: an entry that would insert key `k`. -/
def isRegistrant (k : List Char) (e : RegularInf) : Bool :=
  (linkKey e = k) && (2 ≤ e.nlink)

/-- The dictionary binding for a key is the destination of the first entry
with that key and `nlink >= 2` (subsequent same-key entries never insert,
and entries with `nlink < 2` never insert). -/
theorem dictAfter_lookup (dstDir srcDir : List Char) (k : List Char) :
    ∀ pre : List RegularInf,
      lookupKey k (dictAfter dstDir srcDir [] pre) =
        (pre.find? (isRegistrant k)).map (fun e => dstDir ++ e.path) := by
  intro pre
  induction pre using List.reverseRecOn with
  | nil => simp [dictAfter, lookupKey]
  | append_singleton pre e ih =>
    have hd : dictAfter dstDir srcDir [] (pre ++ [e]) =
        (genRegularStep dstDir srcDir (dictAfter dstDir srcDir [] pre) e).2 := by
      clear ih
      generalize ([] : List (List Char × List Char)) = d0
      induction pre generalizing d0 with
      | nil => simp [dictAfter]
      | cons x rest ih2 => simp only [List.cons_append, dictAfter]; exact ih2 _
    rw [hd, List.find?_append]
    unfold genRegularStep
    cases hlk : lookupKey (linkKey e) (dictAfter dstDir srcDir [] pre) with
    | some v =>
      simp only
      rw [ih]
      cases hf : pre.find? (isRegistrant k) with
      | some w => simp [hf]
      | none =>
        rw [hf] at ih
        by_cases hke : linkKey e = k
        · rw [hke, ih] at hlk
          simp at hlk
        · have hreg : isRegistrant k e = false := by
            unfold isRegistrant
            simp [hke]
          simp [hf, hreg, List.find?]
    | none =>
      simp only
      by_cases hn : 2 ≤ e.nlink
      · rw [if_pos hn]
        by_cases hke : linkKey e = k
        · show lookupKey k ((linkKey e, dstDir ++ e.path) ::
              dictAfter dstDir srcDir [] pre) = _
          unfold lookupKey
          rw [if_pos hke]
          rw [hke, ih] at hlk
          have hf : pre.find? (isRegistrant k) = none := by
            cases hcf : pre.find? (isRegistrant k) with
            | none => rfl
            | some w => rw [hcf] at hlk; simp at hlk
          have hreg : isRegistrant k e = true := by
            unfold isRegistrant
            simp [hke, hn]
          simp [hf, hreg, List.find?]
        · show lookupKey k ((linkKey e, dstDir ++ e.path) ::
              dictAfter dstDir srcDir [] pre) = _
          unfold lookupKey
          rw [if_neg hke]
          rw [ih]
          have hreg : isRegistrant k e = false := by
            unfold isRegistrant
            simp [hke]
          cases hf : pre.find? (isRegistrant k) with
          | some w => simp [hreg, List.find?]
          | none => simp [hreg, List.find?]
      · rw [if_neg hn]
        rw [ih]
        have hreg : isRegistrant k e = false := by
          unfold isRegistrant
          simp
          intro h
          omega
        cases hf : pre.find? (isRegistrant k) with
        | some w => simp [hreg, List.find?]
        | none => simp [hreg, List.find?]

/-- Two regular entries with the same content hash, each with
`link_count = 1` (so no inode field), at distinct paths. -/
def c2Cex1 : RegularInf :=
  ⟨420, 0, 0, 1, String.toList "aa11", String.toList "/a", some 5, none, none⟩

def c2Cex2 : RegularInf :=
  ⟨420, 0, 0, 1, String.toList "aa11", String.toList "/b", some 5, none, none⟩

/-- Claim C2, counterexample: as stated the claim requires every subsequent
entry with the same link-group key to be hardlinked to the first
occurrence's destination.  For two entries sharing a content hash but each
with `link_count = 1`, `_gen_regulars` copies both (the first occurrence is
only registered as a hardlink source when `nlink >= 2`), so the second
entry is materialized by `shutil.copyfile`, not `os.link`. -/
theorem c2_hardlink_counterexample :
    genRegulars (String.toList "/d") (String.toList "/s") [c2Cex1, c2Cex2] =
      [FsAction.copyFile (String.toList "/s/a") (String.toList "/d/a"),
       FsAction.chown (String.toList "/d/a") 0 0,
       FsAction.chmod (String.toList "/d/a") 420,
       FsAction.copyFile (String.toList "/s/b") (String.toList "/d/b"),
       FsAction.chown (String.toList "/d/b") 0 0,
       FsAction.chmod (String.toList "/d/b") 420] ∧
    ((genRegulars (String.toList "/d") (String.toList "/s")
        [c2Cex1, c2Cex2]).all fun a =>
      match a with
      | FsAction.hardlink _ _ => false
      | _ => true) = true := by
  constructor
  · rfl
  · rfl

/-- Two regular entries sharing `inode_id` 7 with `link_count = 2`. -/
def c2Link1 : RegularInf :=
  ⟨420, 0, 0, 2, String.toList "bb22", String.toList "/a", some 5,
    some (String.toList "7"), none⟩

def c2Link2 : RegularInf :=
  ⟨420, 0, 0, 2, String.toList "cc33", String.toList "/b", some 5,
    some (String.toList "7"), none⟩

/-- Claim C2 (amended): entries are processed in file order; an entry whose
link-group key (`inode` when present, else the content hash) has no earlier
occurrence with `link_count >= 2` is materialized by copy, chown and chmod;
an entry whose key was registered by an earlier entry with
`link_count >= 2` is created as a hardlink to that first registrant's
destination path.  Consequently two entries sharing an `inode_id` with
`link_count = 2` end up with the same inode in the destination. -/
theorem c2_hardlink_reconstruction_amended :
    (∀ (dstDir srcDir : List Char) (pre post : List RegularInf)
        (inf : RegularInf),
      ∃ tail, genRegulars dstDir srcDir (pre ++ inf :: post) =
        genRegulars dstDir srcDir pre ++
          (match (pre.find? (isRegistrant (linkKey inf))).map
              (fun e => dstDir ++ e.path) with
            | none =>
              [FsAction.copyFile (srcDir ++ inf.path) (dstDir ++ inf.path),
               FsAction.chown (dstDir ++ inf.path) inf.uid inf.gid,
               FsAction.chmod (dstDir ++ inf.path) inf.mode]
            | some firstDst =>
              [FsAction.hardlink firstDst (dstDir ++ inf.path)]) ++ tail) ∧
    (∃ fs : FsState,
      applyActions ⟨[], 0⟩ (genRegulars (String.toList "/d")
        (String.toList "/s") [c2Link1, c2Link2]) = some fs ∧
      lookupInode (String.toList "/d/a") fs.inodes =
        lookupInode (String.toList "/d/b") fs.inodes ∧
      (lookupInode (String.toList "/d/a") fs.inodes).isSome = true) := by
  constructor
  · intro dstDir srcDir pre post inf
    refine ⟨genRegularsGo dstDir srcDir
      (genRegularStep dstDir srcDir (dictAfter dstDir srcDir [] pre) inf).2 post, ?_⟩
    unfold genRegulars
    rw [genRegularsGo_append, List.append_assoc]
    congr 1
    show (genRegularStep dstDir srcDir (dictAfter dstDir srcDir [] pre) inf).1 ++
        genRegularsGo dstDir srcDir
          (genRegularStep dstDir srcDir (dictAfter dstDir srcDir [] pre) inf).2
          post = _
    congr 1
    unfold genRegularStep
    rw [← dictAfter_lookup dstDir srcDir (linkKey inf) pre]
    cases hlk : lookupKey (linkKey inf) (dictAfter dstDir srcDir [] pre) with
    | none => simp
    | some firstDst => simp
  · exact ⟨⟨[(String.toList "/d/b", 0), (String.toList "/d/a", 0)], 1⟩,
      by constructor
         · rfl
         · constructor
           · rfl
           · rfl⟩

/-- Claim C10: a regular entry is registered as a hardlink source only when
its `link_count` is at least 2 (part 1); when every entry carrying a given
link-group key has `link_count < 2`, each such entry is materialized as an
independent copy, never as a hardlink (part 2); in particular two entries
sharing a content hash with `link_count = 1` receive distinct inodes
(part 3, concrete). -/
theorem c10_no_hash_dedup_for_singly_linked :
    (∀ (dstDir srcDir k v : List Char) (infs : List RegularInf),
      lookupKey k (dictAfter dstDir srcDir [] infs) = some v →
      ∃ e ∈ infs, linkKey e = k ∧ 2 ≤ e.nlink ∧ v = dstDir ++ e.path) ∧
    (∀ (dstDir srcDir : List Char) (pre post : List RegularInf)
        (inf : RegularInf),
      (∀ e ∈ pre, linkKey e = linkKey inf → e.nlink < 2) →
      ∃ tail, genRegulars dstDir srcDir (pre ++ inf :: post) =
        genRegulars dstDir srcDir pre ++
          ([FsAction.copyFile (srcDir ++ inf.path) (dstDir ++ inf.path),
            FsAction.chown (dstDir ++ inf.path) inf.uid inf.gid,
            FsAction.chmod (dstDir ++ inf.path) inf.mode] ++ tail)) ∧
    (∃ fs : FsState,
      applyActions ⟨[], 0⟩ (genRegulars (String.toList "/d")
        (String.toList "/s") [c2Cex1, c2Cex2]) = some fs ∧
      lookupInode (String.toList "/d/a") fs.inodes = some 0 ∧
      lookupInode (String.toList "/d/b") fs.inodes = some 1 ∧
      lookupInode (String.toList "/d/a") fs.inodes ≠
        lookupInode (String.toList "/d/b") fs.inodes) := by
  refine ⟨?_, ?_, ?_⟩
  · intro dstDir srcDir k v infs h
    rw [dictAfter_lookup] at h
    cases hf : infs.find? (isRegistrant k) with
    | none => rw [hf] at h; simp at h
    | some e =>
      rw [hf] at h
      simp only [Option.map_some', Option.some.injEq] at h
      have hmem := List.mem_of_find?_eq_some hf
      have hprop := List.find?_some hf
      unfold isRegistrant at hprop
      simp only [Bool.and_eq_true, decide_eq_true_eq] at hprop
      exact ⟨e, hmem, hprop.1, hprop.2, h.symm⟩
  · intro dstDir srcDir pre post inf h
    have hf : pre.find? (isRegistrant (linkKey inf)) = none := by
      rw [List.find?_eq_none]
      intro e he
      unfold isRegistrant
      simp only [Bool.and_eq_true, decide_eq_true_eq, not_and]
      intro hk
      have := h e he hk
      omega
    refine ⟨genRegularsGo dstDir srcDir
      (genRegularStep dstDir srcDir (dictAfter dstDir srcDir [] pre) inf).2
      post, ?_⟩
    unfold genRegulars
    rw [genRegularsGo_append]
    congr 1
    show (genRegularStep dstDir srcDir (dictAfter dstDir srcDir [] pre) inf).1 ++
        genRegularsGo dstDir srcDir
          (genRegularStep dstDir srcDir (dictAfter dstDir srcDir [] pre) inf).2
          post = _
    congr 1
    unfold genRegularStep
    have hlk : lookupKey (linkKey inf) (dictAfter dstDir srcDir [] pre) = none := by
      rw [dictAfter_lookup, hf]
      rfl
    rw [hlk]
  · exact ⟨⟨[(String.toList "/d/b", 1), (String.toList "/d/a", 0)], 2⟩,
      by refine ⟨rfl, rfl, rfl, by decide⟩⟩

/-- Claim C10, witness: the two general parts applied to a concrete
two-entry manifest of singly-linked files sharing a hash. -/
theorem c10_no_hash_dedup_witness :
    (∃ e ∈ [c2Link1, c2Link2],
      linkKey e = String.toList "7" ∧ 2 ≤ e.nlink ∧
      String.toList "/d/a" = String.toList "/d" ++ e.path) ∧
    (∃ tail, genRegulars (String.toList "/d") (String.toList "/s")
        ([c2Cex1] ++ c2Cex2 :: []) =
      genRegulars (String.toList "/d") (String.toList "/s") [c2Cex1] ++
        ([FsAction.copyFile (String.toList "/s" ++ c2Cex2.path)
            (String.toList "/d" ++ c2Cex2.path),
          FsAction.chown (String.toList "/d" ++ c2Cex2.path) c2Cex2.uid
            c2Cex2.gid,
          FsAction.chmod (String.toList "/d" ++ c2Cex2.path) c2Cex2.mode] ++
          tail)) :=
  ⟨c10_no_hash_dedup_for_singly_linked.1 (String.toList "/d")
      (String.toList "/s") (String.toList "7") (String.toList "/d/a")
      [c2Link1, c2Link2] (by decide),
   c10_no_hash_dedup_for_singly_linked.2.1 (String.toList "/d")
      (String.toList "/s") [c2Cex1] [] c2Cex2 (by decide)⟩

/-- `str.split('/')`. -/
def splitOnSlash (l : List Char) : List (List Char) :=
  l.foldr (fun c acc =>
    if c = ('/' : Char) then [] :: acc
    else match acc with
      | [] => [[c]]
      | a :: as_ => (c :: a) :: as_) [[]]

/-- One step of the component loop of POSIX `os.path.normpath`. -/
def normComp (initialSlashes : Nat) (acc : List (List Char))
    (comp : List Char) : List (List Char) :=
  if comp = [] ∨ comp = [('.' : Char)] then acc
  else if comp ≠ [('.' : Char), ('.' : Char)] ∨
      (initialSlashes = 0 ∧ acc = []) ∨
      (acc ≠ [] ∧ acc.getLast? = some [('.' : Char), ('.' : Char)]) then
    acc ++ [comp]
  else if acc ≠ [] then acc.dropLast else acc

/-- POSIX `os.path.normpath`, used by `gen_data` (data_gen.py lines
152-153). -/
def normpath (p : List Char) : List Char :=
  if p = [] then [('.' : Char)]
  else
    let islashes : Nat :=
      if p.take 1 = [('/' : Char)] then
        (if p.take 2 = [('/' : Char), ('/' : Char)] ∧
            ¬ (p.take 3 = [('/' : Char), ('/' : Char), ('/' : Char)]) then 2
         else 1)
      else 0
    let res := List.replicate islashes ('/' : Char) ++
      List.intercalate [('/' : Char)]
        ((splitOnSlash p).foldl (normComp islashes) [])
    if res = [] then [('.' : Char)] else res

/-- Errors raised by `gen_data` and its helpers. -/
inductive GenDataError where
  | sourceDestinationSame
  | destinationNotEmpty
  | malformedRecord
deriving DecidableEq, Repr

/-- `_gen_dirs` (data_gen.py lines 102-110): parse each line, then
`os.makedirs`, `os.chown`, `os.chmod`; a parse failure aborts, keeping the
actions already performed. -/
def genDirs (dstDir : List Char) :
    List (List Char) → List FsAction × Option GenDataError
  | [] => ([], none)
  | line :: rest =>
    match parseDirectoryInf line with
    | none => ([], some GenDataError.malformedRecord)
    | some inf =>
      match genDirs dstDir rest with
      | (as2, e) =>
        ([FsAction.makedirs (dstDir ++ inf.path) inf.mode,
          FsAction.chown (dstDir ++ inf.path) inf.uid inf.gid,
          FsAction.chmod (dstDir ++ inf.path) inf.mode] ++ as2, e)

/-- `_gen_symlinks` (data_gen.py lines 113-121): `os.symlink` then
`os.chown(..., follow_symlinks=False)`; symlinks are never chmodded. -/
def genSymlinks (dstDir : List Char) :
    List (List Char) → List FsAction × Option GenDataError
  | [] => ([], none)
  | line :: rest =>
    match parseSymbolicLinkInf line with
    | none => ([], some GenDataError.malformedRecord)
    | some inf =>
      match genSymlinks dstDir rest with
      | (as2, e) =>
        ([FsAction.symlink inf.srcpath (dstDir ++ inf.slink),
          FsAction.lchown (dstDir ++ inf.slink) inf.uid inf.gid] ++ as2, e)

/-- `_gen_regulars` (data_gen.py lines 124-141) on raw manifest lines. -/
def genRegularsLines (dstDir srcDir : List Char)
    (dict : List (List Char × List Char)) :
    List (List Char) → List FsAction × Option GenDataError
  | [] => ([], none)
  | line :: rest =>
    match parseRegularInf line with
    | none => ([], some GenDataError.malformedRecord)
    | some inf =>
      match genRegularsLines dstDir srcDir
          (genRegularStep dstDir srcDir dict inf).2 rest with
      | (as2, e) => ((genRegularStep dstDir srcDir dict inf).1 ++ as2, e)

/-- `gen_data` (data_gen.py lines 144-162): normalize both directories,
fail with `SourceDestinationSame` when they coincide, create the
destination directory (`os.makedirs(dst, exist_ok=True)` — setup of the
destination itself, not a manifest write), fail with `DestinationNotEmpty`
when its listing is nonempty, then reconstruct directories, symlinks and
regular files in that order.  The returned action list holds the
directory/symlink/regular-file writes performed before any failure;
`dstListing` is the `os.listdir` result observed after the `makedirs`. -/
def gen_data (dstDir srcDir : List Char) (dstListing : List (List Char))
    (dirLines symLines regLines : List (List Char)) :
    List FsAction × Option GenDataError :=
  if normpath dstDir = normpath srcDir then
    ([], some GenDataError.sourceDestinationSame)
  else if dstListing ≠ [] then
    ([], some GenDataError.destinationNotEmpty)
  else
    match genDirs (normpath dstDir) dirLines with
    | (a1, some e) => (a1, some e)
    | (a1, none) =>
      match genSymlinks (normpath dstDir) symLines with
      | (a2, some e) => (a1 ++ a2, some e)
      | (a2, none) =>
        match genRegularsLines (normpath dstDir) (normpath srcDir) []
            regLines with
        | (a3, e) => (a1 ++ a2 ++ a3, e)

/-- Claim C6: reconstruction fails fast.  When the normalized destination
equals the normalized source, `gen_data` fails with
`SourceDestinationSame`; otherwise when the destination listing is
nonempty it fails with `DestinationNotEmpty`; in both cases no directory,
symlink or regular file has been written (the action list is empty). -/
theorem c6_gen_data_preconditions_fail_fast :
    (∀ (dstDir srcDir : List Char) (dstListing : List (List Char))
        (dirLines symLines regLines : List (List Char)),
      normpath dstDir = normpath srcDir →
      gen_data dstDir srcDir dstListing dirLines symLines regLines =
        ([], some GenDataError.sourceDestinationSame)) ∧
    (∀ (dstDir srcDir : List Char) (dstListing : List (List Char))
        (dirLines symLines regLines : List (List Char)),
      normpath dstDir ≠ normpath srcDir →
      dstListing ≠ [] →
      gen_data dstDir srcDir dstListing dirLines symLines regLines =
        ([], some GenDataError.destinationNotEmpty)) := by
  constructor
  · intro dstDir srcDir dstListing dirLines symLines regLines h
    unfold gen_data
    rw [if_pos h]
  · intro dstDir srcDir dstListing dirLines symLines regLines h1 h2
    unfold gen_data
    rw [if_neg h1, if_pos h2]

/-- Claim C6, witness: the same-path and nonempty-destination failures on
concrete inputs, before any write. -/
theorem c6_gen_data_preconditions_witness :
    gen_data (String.toList "/x/./out") (String.toList "/x/out")
        [] [String.toList "0755,0,0"] [] [] =
      ([], some GenDataError.sourceDestinationSame) ∧
    gen_data (String.toList "/x/out") (String.toList "/x/src")
        [String.toList "stale"] [String.toList "0755,0,0"] [] [] =
      ([], some GenDataError.destinationNotEmpty) :=
  ⟨c6_gen_data_preconditions_fail_fast.1 _ _ _ _ _ _ (by decide),
   c6_gen_data_preconditions_fail_fast.2 _ _ _ _ _ _ (by decide) (by decide)⟩

/-- fnmatch-style glob matching with literal characters and `*` (the only
metacharacter appearing in the patterns metadata_gen.py passes to
`glob.glob`), fuel-based so that it kernel-reduces. -/
def globMatchAux : Nat → List Char → List Char → Bool
  | 0, _, _ => false
  | _ + 1, [], s => decide (s = [])
  | fuel + 1, c :: p, s =>
    if c = ('*' : Char) then
      globMatchAux fuel p s ||
        (match s with
         | [] => false
         | _ :: s2 => globMatchAux fuel (c :: p) s2)
    else
      match s with
      | [] => false
      | d :: s2 => c = d && globMatchAux fuel p s2

def globMatch (p s : List Char) : Bool :=
  globMatchAux (p.length + s.length + 1) p s

/-- One entry of the `boot` directory listing: a file name and whether the
file is a symlink. -/
structure BootEntry where
  name : List Char
  isSymlink : Bool
deriving DecidableEq, Repr

/-- The `boot` directory as `_list_non_latest_kernels` observes it: the
directory listing in the order `glob.glob` enumerates it, plus whether
`boot/extlinux/extlinux.conf` is a file.  Results are file names relative
to `boot_dir` (the Python code prefixes every name with the same
`boot_dir`). -/
structure BootDir where
  entries : List BootEntry
  extlinuxConf : Bool
deriving DecidableEq, Repr

/-- `glob.glob(str(boot_dir / pat))` followed by the
`if not Path(f).is_symlink()` filter used at every glob call site. -/
def globNonSymlinks (bd : BootDir) (pat : List Char) : List (List Char) :=
  (bd.entries.filter fun e => globMatch pat e.name && !e.isSymlink).map
    BootEntry.name

/-- Parse result of the kernel-file regex
`vmlinuz-(?P<version>\d+\.\d+\.\d+-\d+)(?P<suffix>.*)` (`re.match`):
the four numeric components, the text of the `version` group, and the
`suffix` group. -/
structure KVer where
  nums : Nat × Nat × Nat × Nat
  verStr : List Char
  suffix : List Char
deriving DecidableEq, Repr

/-- The regex match `pa.match(name)`: each greedy `\d+` is a maximal
nonempty digit run (the following literal `.`/`-` cannot be a digit, so no
backtracking arises) and `suffix` is the remainder of the name. -/
def parseKver (name : List Char) : Option KVer :=
  if name.take 8 = String.toList "vmlinuz-" then
    let r0 := name.drop 8
    let d1 := r0.takeWhile isDigitCh
    let r1 := r0.dropWhile isDigitCh
    if d1 ≠ [] ∧ r1.take 1 = [('.' : Char)] then
      let r1b := r1.drop 1
      let d2 := r1b.takeWhile isDigitCh
      let r2 := r1b.dropWhile isDigitCh
      if d2 ≠ [] ∧ r2.take 1 = [('.' : Char)] then
        let r2b := r2.drop 1
        let d3 := r2b.takeWhile isDigitCh
        let r3 := r2b.dropWhile isDigitCh
        if d3 ≠ [] ∧ r3.take 1 = [('-' : Char)] then
          let r3b := r3.drop 1
          let d4 := r3b.takeWhile isDigitCh
          let suf := r3b.dropWhile isDigitCh
          if d4 ≠ [] then
            some ⟨(decVal d1, decVal d2, decVal d3, decVal d4),
              d1 ++ ('.' : Char) :: d2 ++ ('.' : Char) :: d3 ++
                ('-' : Char) :: d4, suf⟩
          else none
        else none
      else none
    else none
  else none

/-- The `compare` callback of `_get_latest_kernel_version`: `1`/`-1` by
comparing the parsed versions (`packaging.version` orders these strings by
the numeric 4-tuple), `0` when either name fails to parse. -/
def kverCompare (l r : List Char) : Int :=
  match parseKver l, parseKver r with
  | some kl, some kr =>
    if kl.nums = kr.nums then 0
    else if kr.nums.1 < kl.nums.1 ∨ (kr.nums.1 = kl.nums.1 ∧
        (kr.nums.2.1 < kl.nums.2.1 ∨ (kr.nums.2.1 = kl.nums.2.1 ∧
          (kr.nums.2.2.1 < kl.nums.2.2.1 ∨ (kr.nums.2.2.1 = kl.nums.2.2.1 ∧
            kr.nums.2.2.2 < kl.nums.2.2.2))))) then 1
    else -1
  | _, _ => 0

/-- `_get_latest_kernel_version` (metadata_gen.py lines 166-187): glob
`vmlinuz-*.*.*-*-*`, drop symlinks, `None` models the
`No kernel files found` exception when the glob is empty; otherwise
`sorted(..., key=cmp_to_key(compare), reverse=True)[0]`, i.e. (stable
sort) the first name in glob order among the maximal ones. -/
def getLatestKernelVersion (bd : BootDir) : Option (List Char) :=
  match globNonSymlinks bd (String.toList "vmlinuz-*.*.*-*-*") with
  | [] => none
  | n :: rest =>
    some (rest.foldl (fun best cur =>
      if kverCompare cur best = 1 then cur else best) n)

/-- The exceptions raised inside the `try` block of
`_list_non_latest_kernels`. -/
inductive KernelErr where
  | noKernelFiles
  | unparsableLatest
  | missingInitrd
deriving DecidableEq, Repr

/-- Body of `_list_non_latest_kernels` after the latest kernel name has
been matched: build the three expected companion names, glob the four
artifact families (symlinks excluded), raise when the latest initrd is
absent, otherwise union the four families and discard the latest
quartet. -/
def nonLatestFrom (bd : BootDir) (latest : List Char) (kv : KVer) :
    Except KernelErr (List (List Char)) :=
  if (String.toList "initrd.img-" ++ (kv.verStr ++ kv.suffix)) ∈
      globNonSymlinks bd (String.toList "initrd.img-*") then
    Except.ok
      ((globNonSymlinks bd (String.toList "vmlinuz-*") ++
        globNonSymlinks bd (String.toList "initrd.img-*") ++
        globNonSymlinks bd (String.toList "System.map-*") ++
        globNonSymlinks bd (String.toList "config-*")).filter
        (fun n =>
          !(n == latest) &&
          !(n == String.toList "initrd.img-" ++ (kv.verStr ++ kv.suffix)) &&
          !(n == String.toList "System.map-" ++ (kv.verStr ++ kv.suffix)) &&
          !(n == String.toList "config-" ++ (kv.verStr ++ kv.suffix))))
  else Except.error KernelErr.missingInitrd

/-- The `try` block of `_list_non_latest_kernels` (metadata_gen.py lines
200-251), with each `raise` surfaced as an `Except.error`. -/
def listNonLatestKernelsInner (bd : BootDir) :
    Except KernelErr (List (List Char)) :=
  match getLatestKernelVersion bd with
  | none => Except.error KernelErr.noKernelFiles
  | some latest =>
    match parseKver latest with
    | none => Except.error KernelErr.unparsableLatest
    | some kv => nonLatestFrom bd latest kv

/-- `_list_non_latest_kernels` (metadata_gen.py lines 190-259): empty set
when `boot/extlinux/extlinux.conf` exists; otherwise the `try` body, with
the `except Exception` handler turning every error into the empty set
(after printing a warning). -/
def listNonLatestKernels (bd : BootDir) : List (List Char) :=
  if bd.extlinuxConf then []
  else
    match listNonLatestKernelsInner bd with
    | Except.error _ => []
    | Except.ok l => l

/-- A non-symlink boot entry. -/
def mkE (s : String) : BootEntry := ⟨String.toList s, false⟩

/-- A boot directory containing only the latest kernel image and no
initrd at all. -/
def c3Boot : BootDir :=
  ⟨[mkE "vmlinuz-5.15.0-64-generic"], false⟩

/-- Claim C3, counterexample: with `vmlinuz-5.15.0-64-generic` identified
as the latest kernel and no `initrd.img-5.15.0-64-generic` present, the
missing-initrd exception is raised inside the `try` block — and then
caught by the `except Exception` handler, so `_list_non_latest_kernels`
returns the empty set normally and classification continues instead of
aborting. -/
theorem c3_missing_initrd_counterexample :
    getLatestKernelVersion c3Boot =
      some (String.toList "vmlinuz-5.15.0-64-generic") ∧
    globNonSymlinks c3Boot (String.toList "initrd.img-*") = [] ∧
    listNonLatestKernelsInner c3Boot = Except.error KernelErr.missingInitrd ∧
    listNonLatestKernels c3Boot = [] :=
  ⟨rfl, rfl, rfl, rfl⟩

/-- Claim C3, amended: when the latest kernel is identified, its name
parses, and the companion initrd is not among the non-symlink
`initrd.img-*` files, the `try` body of `_list_non_latest_kernels` does
raise the missing-initrd exception — but the function catches it and
returns the empty set, so the caller never observes a fatal error and
kernel pruning is merely disabled for the run. -/
theorem c3_missing_initrd_amended (bd : BootDir)
    (hex : bd.extlinuxConf = false)
    (latest : List Char) (kv : KVer)
    (hl : getLatestKernelVersion bd = some latest)
    (hp : parseKver latest = some kv)
    (hi : (String.toList "initrd.img-" ++ (kv.verStr ++ kv.suffix)) ∉
      globNonSymlinks bd (String.toList "initrd.img-*")) :
    listNonLatestKernelsInner bd = Except.error KernelErr.missingInitrd ∧
    listNonLatestKernels bd = [] := by
  have h1 : listNonLatestKernelsInner bd =
      Except.error KernelErr.missingInitrd := by
    simp only [listNonLatestKernelsInner, hl, hp]
    unfold nonLatestFrom
    rw [if_neg hi]
  refine ⟨h1, ?_⟩
  simp [listNonLatestKernels, hex, h1]

/-- Claim C3, witness: the amended theorem at the concrete boot directory
`c3Boot`. -/
theorem c3_missing_initrd_witness :
    listNonLatestKernelsInner c3Boot = Except.error KernelErr.missingInitrd ∧
    listNonLatestKernels c3Boot = [] :=
  c3_missing_initrd_amended c3Boot rfl
    (String.toList "vmlinuz-5.15.0-64-generic")
    ⟨(5, 15, 0, 64), String.toList "5.15.0-64", String.toList "-generic"⟩
    (by rfl) (by rfl) (by decide)

/-- The four kernels of the claim-C7 scenario with a full matching
quartet (initrd, System.map and config) for every version. -/
def c7Boot : BootDir :=
  ⟨[mkE "vmlinuz-5.15.0-27-generic", mkE "vmlinuz-5.15.0-64-generic",
    mkE "vmlinuz-5.4.0-102-generic", mkE "vmlinuz-4.12.0-27-generic",
    mkE "initrd.img-5.15.0-27-generic", mkE "initrd.img-5.15.0-64-generic",
    mkE "initrd.img-5.4.0-102-generic", mkE "initrd.img-4.12.0-27-generic",
    mkE "System.map-5.15.0-27-generic", mkE "System.map-5.15.0-64-generic",
    mkE "System.map-5.4.0-102-generic", mkE "System.map-4.12.0-27-generic",
    mkE "config-5.15.0-27-generic", mkE "config-5.15.0-64-generic",
    mkE "config-5.4.0-102-generic", mkE "config-4.12.0-27-generic"], false⟩

/-- The same four kernels with matching initrds only (no System.map or
config files), the layout of the repository test suite. -/
def c7BootTest : BootDir :=
  ⟨[mkE "vmlinuz-5.15.0-27-generic", mkE "vmlinuz-5.15.0-64-generic",
    mkE "vmlinuz-5.4.0-102-generic", mkE "vmlinuz-4.12.0-27-generic",
    mkE "initrd.img-5.15.0-27-generic", mkE "initrd.img-5.15.0-64-generic",
    mkE "initrd.img-5.4.0-102-generic", mkE "initrd.img-4.12.0-27-generic"],
   false⟩

/-- Claim C7, counterexample: with kernels 5.15.0-27, 5.15.0-64 (latest),
5.4.0-102, 4.12.0-27 and matching initrd, System.map and config files for
each, `_list_non_latest_kernels` returns twelve artifact paths (three
non-latest versions times four artifact kinds), not six. -/
theorem c7_kernel_pruning_counterexample :
    (listNonLatestKernels c7Boot).length = 12 ∧
    ¬ (listNonLatestKernels c7Boot).length = 6 := by
  have h : (listNonLatestKernels c7Boot).length = 12 := rfl
  exact ⟨h, by rw [h]; decide⟩

/-- Claim C7, amended: whenever `boot/extlinux/extlinux.conf` exists the
function returns the empty set regardless of the kernel files present;
with full matching quartets for the four kernels the result is exactly
the twelve non-latest artifacts (the latest quartet is excluded); the
claimed six paths arise in the scenario where only matching initrds (and
no System.map or config files) accompany the four kernels. -/
theorem c7_kernel_pruning_amended :
    (∀ bd : BootDir, bd.extlinuxConf = true →
      listNonLatestKernels bd = []) ∧
    listNonLatestKernels c7Boot = List.map String.toList
      ["vmlinuz-5.15.0-27-generic", "vmlinuz-5.4.0-102-generic",
       "vmlinuz-4.12.0-27-generic", "initrd.img-5.15.0-27-generic",
       "initrd.img-5.4.0-102-generic", "initrd.img-4.12.0-27-generic",
       "System.map-5.15.0-27-generic", "System.map-5.4.0-102-generic",
       "System.map-4.12.0-27-generic", "config-5.15.0-27-generic",
       "config-5.4.0-102-generic", "config-4.12.0-27-generic"] ∧
    listNonLatestKernels c7BootTest = List.map String.toList
      ["vmlinuz-5.15.0-27-generic", "vmlinuz-5.4.0-102-generic",
       "vmlinuz-4.12.0-27-generic", "initrd.img-5.15.0-27-generic",
       "initrd.img-5.4.0-102-generic", "initrd.img-4.12.0-27-generic"] := by
  refine ⟨?_, rfl, rfl⟩
  intro bd h
  simp [listNonLatestKernels, h]

/-- A boot directory where the kernel is specified by
`boot/extlinux/extlinux.conf`. -/
def c7ExtBoot : BootDir := ⟨[mkE "vmlinuz-5.15.0-64-generic"], true⟩

/-- Claim C7, witness: the extlinux clause of the amended theorem at a
concrete boot directory that does contain a kernel file. -/
theorem c7_kernel_pruning_witness :
    listNonLatestKernels c7ExtBoot = [] :=
  c7_kernel_pruning_amended.1 c7ExtBoot rfl

/-- A boot directory with no kernel files at all. -/
def c9Boot : BootDir := ⟨[mkE "config-5.15.0-64-generic"], false⟩

/-- Claim C9: `_list_non_latest_kernels` is total towards its caller —
whenever the `try` body raises (no kernel files, unparsable latest name,
or missing companion initrd), the handler returns the empty set instead
of propagating the exception, and otherwise the successful result is
returned unchanged. -/
theorem c9_kernel_pruning_totality :
    ∀ bd : BootDir,
      (∀ e : KernelErr, listNonLatestKernelsInner bd = Except.error e →
        listNonLatestKernels bd = []) ∧
      (listNonLatestKernels bd = [] ∨
        listNonLatestKernelsInner bd =
          Except.ok (listNonLatestKernels bd)) := by
  intro bd
  constructor
  · intro e he
    by_cases hb : bd.extlinuxConf
    · simp [listNonLatestKernels, hb]
    · simp [listNonLatestKernels, hb, he]
  · by_cases hb : bd.extlinuxConf
    · left
      simp [listNonLatestKernels, hb]
    · cases h : listNonLatestKernelsInner bd with
      | error e =>
        left
        simp [listNonLatestKernels, hb, h]
      | ok l =>
        right
        simp [listNonLatestKernels, hb, h]

/-- Claim C9, witness: the totality theorem applied to a boot directory
with no vmlinuz files, where the `try` body raises the no-kernel-files
exception. -/
theorem c9_kernel_pruning_totality_witness :
    listNonLatestKernels c9Boot = [] :=
  (c9_kernel_pruning_totality c9Boot).1 KernelErr.noKernelFiles (by rfl)

/-- What `gen_metadata` observes about one path yielded by
`p.glob("**/*")`: a resolving symlink, a broken symlink
(`f_abs.is_symlink() and not f_abs.exists()`), a directory, or a regular
file. -/
inductive NodeKind where
  | dir
  | file
  | symlinkOk
  | symlinkBroken
deriving DecidableEq, Repr

/-- One walked path: its path relative to `target_dir` and its kind. -/
structure WalkNode where
  rel : List Char
  kind : NodeKind
deriving DecidableEq, Repr

/-- The four sets built by the first pass of `gen_metadata`
(metadata_gen.py lines 312-410), as lists in insertion order;
`paths_to_delete_abs` is kept relative here (the code stores
`p / rel`, with `p` fixed, so the two are in bijection). -/
structure ClassifyResult where
  symlinks : List (List Char)
  dirs : List (List Char)
  regulars : List (List Char)
  toDelete : List (List Char)
deriving DecidableEq, Repr

/-- One iteration of the first pass (metadata_gen.py lines 330-410).
Broken symlinks are skipped before anything is recorded (line 333);
resolving symlinks are added to `metadata_symlinks` and `continue`
(lines 362-368); non-symlinks are deleted when they are a non-latest
kernel or when the ignore decision says so, and otherwise recorded as a
directory or regular file.  `isNLK` is membership in the
`_list_non_latest_kernels` result; `ignoredDelete` is the composite
decision `is_ignored and not should_be_kept_despite_ignore` of lines
376-397 (it may inspect the node kind, as the special autoware-pattern
check distinguishes directories from files); the theorems below hold for
every choice of these two functions, so nothing about the ignore rules is
assumed. -/
def classifyStep (isNLK : List Char → Bool) (ignoredDelete : WalkNode → Bool)
    (acc : ClassifyResult) (n : WalkNode) : ClassifyResult :=
  match n.kind with
  | NodeKind.symlinkBroken => acc
  | NodeKind.symlinkOk => { acc with symlinks := acc.symlinks ++ [n.rel] }
  | NodeKind.dir =>
    if isNLK n.rel || ignoredDelete n then
      { acc with toDelete := acc.toDelete ++ [n.rel] }
    else { acc with dirs := acc.dirs ++ [n.rel] }
  | NodeKind.file =>
    if isNLK n.rel || ignoredDelete n then
      { acc with toDelete := acc.toDelete ++ [n.rel] }
    else { acc with regulars := acc.regulars ++ [n.rel] }

/-- The whole first pass over the walk order of `p.glob("**/*")`. -/
def classifyFirstPass (isNLK : List Char → Bool)
    (ignoredDelete : WalkNode → Bool) (walk : List WalkNode) :
    ClassifyResult :=
  walk.foldl (classifyStep isNLK ignoredDelete) ⟨[], [], [], []⟩

theorem classifyStep_symlinks (isNLK : List Char → Bool)
    (g : WalkNode → Bool) (acc : ClassifyResult) (n : WalkNode) :
    (classifyStep isNLK g acc n).symlinks =
      acc.symlinks ++
        (if n.kind = NodeKind.symlinkOk then [n.rel] else []) := by
  cases n with
  | mk rel kind =>
    cases kind
    case dir => simp only [classifyStep]; split <;> simp
    case file => simp only [classifyStep]; split <;> simp
    case symlinkOk => simp [classifyStep]
    case symlinkBroken => simp [classifyStep]

theorem classify_go_symlinks (isNLK : List Char → Bool)
    (g : WalkNode → Bool) (walk : List WalkNode) :
    ∀ acc : ClassifyResult,
      (walk.foldl (classifyStep isNLK g) acc).symlinks =
        acc.symlinks ++
          (walk.filter
            (fun n => decide (n.kind = NodeKind.symlinkOk))).map
            WalkNode.rel := by
  induction walk with
  | nil => intro acc; simp
  | cons n rest ih =>
    intro acc
    simp only [List.foldl_cons, List.filter_cons]
    rw [ih, classifyStep_symlinks]
    by_cases h : n.kind = NodeKind.symlinkOk
    · simp [h]
    · simp [h]

theorem classifyStep_toDelete_sub (isNLK : List Char → Bool)
    (g : WalkNode → Bool) (acc : ClassifyResult) (n : WalkNode) :
    ∀ r, r ∈ (classifyStep isNLK g acc n).toDelete →
      r ∈ acc.toDelete ∨
        (r = n.rel ∧ (n.kind = NodeKind.dir ∨ n.kind = NodeKind.file)) := by
  intro r hr
  cases n with
  | mk rel kind =>
    cases kind
    case dir =>
      simp only [classifyStep] at hr
      split at hr
      · simp only [List.mem_append, List.mem_singleton] at hr
        rcases hr with h | h
        · exact Or.inl h
        · exact Or.inr ⟨h, Or.inl rfl⟩
      · exact Or.inl hr
    case file =>
      simp only [classifyStep] at hr
      split at hr
      · simp only [List.mem_append, List.mem_singleton] at hr
        rcases hr with h | h
        · exact Or.inl h
        · exact Or.inr ⟨h, Or.inr rfl⟩
      · exact Or.inl hr
    case symlinkOk => exact Or.inl hr
    case symlinkBroken => exact Or.inl hr

theorem classify_toDelete_origin (isNLK : List Char → Bool)
    (g : WalkNode → Bool) (walk : List WalkNode) :
    ∀ (acc : ClassifyResult) (r : List Char),
      r ∈ (walk.foldl (classifyStep isNLK g) acc).toDelete →
      r ∈ acc.toDelete ∨ ∃ n, n ∈ walk ∧ r = n.rel ∧
        (n.kind = NodeKind.dir ∨ n.kind = NodeKind.file) := by
  induction walk with
  | nil => intro acc r h; exact Or.inl h
  | cons m rest ih =>
    intro acc r h
    simp only [List.foldl_cons] at h
    rcases ih _ r h with h1 | ⟨n, hn, hrel, hkind⟩
    · rcases classifyStep_toDelete_sub isNLK g acc m r h1 with
        h2 | ⟨hrel, hkind⟩
      · exact Or.inl h2
      · exact Or.inr ⟨m, List.mem_cons_self m rest, hrel, hkind⟩
    · exact Or.inr ⟨n, List.mem_cons_of_mem m hn, hrel, hkind⟩

/-- A walk containing a broken symlink and a resolving one. -/
def c5Walk : List WalkNode :=
  [⟨String.toList "etc", NodeKind.dir⟩,
   ⟨String.toList "etc/broken", NodeKind.symlinkBroken⟩,
   ⟨String.toList "etc/good", NodeKind.symlinkOk⟩]

/-- Claim C5, counterexample: a broken symlink (`etc/broken`) is skipped
by the first pass before anything is recorded — it is absent from the
symlink keep-set (only the resolving `etc/good` is recorded), refuting
that every symlink, whether or not it resolves, is classified as a
SymlinkEntry. -/
theorem c5_symlink_classification_counterexample :
    (classifyFirstPass (fun _ => false) (fun _ => false) c5Walk).symlinks =
      [String.toList "etc/good"] ∧
    String.toList "etc/broken" ∉
      (classifyFirstPass (fun _ => false) (fun _ => false) c5Walk).symlinks :=
  ⟨rfl, by decide⟩

/-- Claim C5, amended: for every walk with distinct relative paths and
every choice of the kernel-exclusion and ignore decisions, a resolving
symlink is recorded in the symlink keep-set, a broken symlink is skipped
entirely (it is absent from the keep-set), and no symlink of either kind
is ever added to the deletion set by itself. -/
theorem c5_symlink_classification_amended
    (isNLK : List Char → Bool) (ignoredDelete : WalkNode → Bool)
    (walk : List WalkNode) (node : WalkNode)
    (hmem : node ∈ walk) (hnd : (walk.map WalkNode.rel).Nodup) :
    (node.kind = NodeKind.symlinkOk →
      node.rel ∈ (classifyFirstPass isNLK ignoredDelete walk).symlinks) ∧
    (node.kind = NodeKind.symlinkBroken →
      node.rel ∉ (classifyFirstPass isNLK ignoredDelete walk).symlinks) ∧
    ((node.kind = NodeKind.symlinkOk ∨ node.kind = NodeKind.symlinkBroken) →
      node.rel ∉ (classifyFirstPass isNLK ignoredDelete walk).toDelete) := by
  refine ⟨?_, ?_, ?_⟩
  · intro hk
    unfold classifyFirstPass
    rw [classify_go_symlinks]
    simp only [List.nil_append, List.mem_map]
    exact ⟨node, List.mem_filter.mpr ⟨hmem, by simp [hk]⟩, rfl⟩
  · intro hk hin
    unfold classifyFirstPass at hin
    rw [classify_go_symlinks] at hin
    simp only [List.nil_append, List.mem_map] at hin
    obtain ⟨m, hmf, hmr⟩ := hin
    obtain ⟨hmw, hmk⟩ := List.mem_filter.mp hmf
    have hmk2 : m.kind = NodeKind.symlinkOk := by
      simpa using hmk
    have : m = node := List.inj_on_of_nodup_map hnd hmw hmem hmr
    rw [this] at hmk2
    rw [hk] at hmk2
    exact NodeKind.noConfusion hmk2
  · intro hk hin
    unfold classifyFirstPass at hin
    rcases classify_toDelete_origin isNLK ignoredDelete walk _ _ hin with
      h0 | ⟨n, hnw, hnr, hnk⟩
    · simp at h0
    · have : n = node := List.inj_on_of_nodup_map hnd hnw hmem hnr.symm
      rw [this] at hnk
      rcases hk with hk | hk <;> rcases hnk with hnk | hnk <;>
        rw [hk] at hnk <;> exact NodeKind.noConfusion hnk

/-- Claim C5, witness: the amended theorem at the concrete walk `c5Walk`
for the resolving symlink `etc/good`: it is recorded and not marked for
deletion. -/
theorem c5_symlink_classification_witness :
    String.toList "etc/good" ∈
      (classifyFirstPass (fun _ => false) (fun _ => false) c5Walk).symlinks ∧
    String.toList "etc/good" ∉
      (classifyFirstPass (fun _ => false) (fun _ => false) c5Walk).toDelete :=
  ⟨(c5_symlink_classification_amended (fun _ => false) (fun _ => false)
      c5Walk ⟨String.toList "etc/good", NodeKind.symlinkOk⟩
      (by decide) (by decide)).1 rfl,
   (c5_symlink_classification_amended (fun _ => false) (fun _ => false)
      c5Walk ⟨String.toList "etc/good", NodeKind.symlinkOk⟩
      (by decide) (by decide)).2.2 (Or.inl rfl)⟩

/-- Outcome of the stream-copy loop of `zstd_compress_file`
(metadata_gen.py lines 49-52): the compressed size written to `dst_fpath`,
or an I/O error raised by the opens/writes (which the function does not
catch — the source notes `interrupt the whole process if compression
failed`). -/
inductive CompressOutcome where
  | ok (compressedBytes : Nat)
  | ioError
deriving DecidableEq, Repr

/-- What `gen_metadata` observes about one regular file when building
`regulars.txt` (metadata_gen.py lines 599-622): its relative path, its
content (the bytes `_file_sha256` reads), its size, whether the
compressed blob `<hash>.zst` already exists, and how the compression
stream copy would end. -/
structure RegFile where
  path : List Char
  content : List Char
  size : Nat
  dstExists : Bool
  outcome : CompressOutcome
deriving DecidableEq, Repr

/-- `zstd_compress_file` (metadata_gen.py lines 38-64): `False` when the
source is below `filesize_threshold`; otherwise run the stream copy,
letting an I/O error escape; then `False` (dropping the blob) when the
compressed size is zero or the ratio `src_size / compressed_bytes` is
below `cmpr_ratio` (given here as the fraction `ratioNum / ratioDen`,
with the float comparison `src/c < n/d` rendered as `src*d < c*n`);
`True` otherwise. -/
def zstd_compress_file (srcSize : Nat) (outcome : CompressOutcome)
    (ratioNum ratioDen filesizeThreshold : Nat) : Except Unit Bool :=
  if srcSize < filesizeThreshold then Except.ok false
  else
    match outcome with
    | CompressOutcome.ioError => Except.error ()
    | CompressOutcome.ok compressedBytes =>
      if compressedBytes = 0 ∨
          srcSize * ratioDen < compressedBytes * ratioNum then
        Except.ok false
      else Except.ok true

/-- The hash and `compress_alg` fields of one `regulars.txt` record
(metadata_gen.py lines 599-622): the hash is `_file_sha256` of the
original file, computed before any compression; with compression enabled,
`compress_alg` is `"zst"` when the blob already exists (short-circuit,
line 615) or when `zstd_compress_file` returns `True`, and empty
otherwise; an I/O error inside `zstd_compress_file` propagates.  `hashFn`
abstracts SHA-256. -/
def genRegularRecord (compressEnabled : Bool)
    (hashFn : List Char → List Char)
    (ratioNum ratioDen filesizeThreshold : Nat) (f : RegFile) :
    Except Unit (List Char × List Char) :=
  if compressEnabled then
    if f.dstExists then Except.ok (hashFn f.content, String.toList "zst")
    else
      match zstd_compress_file f.size f.outcome ratioNum ratioDen
          filesizeThreshold with
      | Except.error e => Except.error e
      | Except.ok true => Except.ok (hashFn f.content, String.toList "zst")
      | Except.ok false => Except.ok (hashFn f.content, [])
  else Except.ok (hashFn f.content, [])

/-- The `regulars.txt` loop (metadata_gen.py lines 597-633): one record
per file in order; an uncaught exception aborts the remainder of the
loop and the whole encode. -/
def genRegularsSection (compressEnabled : Bool)
    (hashFn : List Char → List Char)
    (ratioNum ratioDen filesizeThreshold : Nat) :
    List RegFile → Except Unit (List (List Char × List Char))
  | [] => Except.ok []
  | f :: rest =>
    match genRegularRecord compressEnabled hashFn ratioNum ratioDen
        filesizeThreshold f with
    | Except.error e => Except.error e
    | Except.ok r =>
      match genRegularsSection compressEnabled hashFn ratioNum ratioDen
          filesizeThreshold rest with
      | Except.error e => Except.error e
      | Except.ok rs => Except.ok (r :: rs)

/-- A large file whose compression stream copy raises an I/O error. -/
def c8BadFile : RegFile :=
  ⟨String.toList "var/big", String.toList "BBBB", 4096, false,
   CompressOutcome.ioError⟩

/-- A small file that is skipped by the size threshold. -/
def c8GoodFile : RegFile :=
  ⟨String.toList "etc/small", String.toList "GG", 10, false,
   CompressOutcome.ok 0⟩

/-- Claim C8, counterexample: with compression enabled, a single file
whose compression raises an I/O error aborts the whole `regulars.txt`
encode (the loop stops with the error and no record is emitted), even
though the remaining manifest — here the same encode without that file —
would succeed; this refutes that a single compression failure never
aborts the overall encode. -/
theorem c8_compression_abort_counterexample :
    genRegularsSection true (fun c => c) 5 4 1024
        [c8BadFile, c8GoodFile] = Except.error () ∧
    genRegularsSection true (fun c => c) 5 4 1024 [c8GoodFile] =
      Except.ok [(String.toList "GG", [])] :=
  ⟨rfl, rfl⟩

/-- Claim C8, amended: the recorded hash of every successfully encoded
file is always the hash of its original uncompressed content, whatever
the compression outcome; a file below the size threshold whose blob does
not already exist keeps an empty `compress_alg`; but an I/O error during
one file's compression (size at threshold or above, no pre-existing
blob) aborts the whole section — by design, per the source note
`interrupt the whole process if compression failed`. -/
theorem c8_compression_amended :
    (∀ (hashFn : List Char → List Char) (rn rd th : Nat) (ce : Bool)
        (f : RegFile) (r : List Char × List Char),
      genRegularRecord ce hashFn rn rd th f = Except.ok r →
      r.1 = hashFn f.content) ∧
    (∀ (hashFn : List Char → List Char) (rn rd th : Nat) (f : RegFile),
      f.size < th → f.dstExists = false →
      genRegularRecord true hashFn rn rd th f =
        Except.ok (hashFn f.content, [])) ∧
    (∀ (hashFn : List Char → List Char) (rn rd th : Nat) (f : RegFile)
        (rest : List RegFile),
      th ≤ f.size → f.dstExists = false →
      f.outcome = CompressOutcome.ioError →
      genRegularsSection true hashFn rn rd th (f :: rest) =
        Except.error ()) := by
  refine ⟨?_, ?_, ?_⟩
  · intro hashFn rn rd th ce f r h
    unfold genRegularRecord at h
    split at h
    · split at h
      · injection h with h2
        rw [← h2]
      · split at h
        · exact Except.noConfusion h
        · injection h with h2
          rw [← h2]
        · injection h with h2
          rw [← h2]
    · injection h with h2
      rw [← h2]
  · intro hashFn rn rd th f hsize hdst
    have hz : zstd_compress_file f.size f.outcome rn rd th =
        Except.ok false := by
      unfold zstd_compress_file
      rw [if_pos hsize]
    simp only [genRegularRecord, hdst, Bool.false_eq_true, if_false,
      if_true, hz]
  · intro hashFn rn rd th f rest hsize hdst hout
    have hz : zstd_compress_file f.size f.outcome rn rd th =
        Except.error () := by
      unfold zstd_compress_file
      rw [if_neg (Nat.not_lt.mpr hsize), hout]
    have hr : genRegularRecord true hashFn rn rd th f =
        Except.error () := by
      simp only [genRegularRecord, hdst, Bool.false_eq_true, if_false,
        if_true, hz]
    simp only [genRegularsSection, hr]

/-- Claim C8, witness: the amended theorem at concrete inputs — hash
purity for a record whose compression was skipped, the small-file gate,
and the abort on the I/O-error file. -/
theorem c8_compression_amended_witness :
    (String.toList "GG", ([] : List Char)).1 = String.toList "GG" ∧
    genRegularRecord true (fun c => c) 5 4 1024 c8GoodFile =
      Except.ok (String.toList "GG", []) ∧
    genRegularsSection true (fun c => c) 5 4 1024 [c8BadFile] =
      Except.error () :=
  ⟨c8_compression_amended.1 (fun c => c) 5 4 1024 true c8GoodFile
      (String.toList "GG", []) (by rfl),
   c8_compression_amended.2.1 (fun c => c) 5 4 1024 c8GoodFile
      (by decide) (by rfl),
   c8_compression_amended.2.2 (fun c => c) 5 4 1024 c8BadFile []
      (by decide) (by rfl) (by rfl)⟩
